import Mathlib

/-!
Verification of the proglog commit-log storage engine (store / index /
segment / log) against its natural-language specification.

The Go source is shallowly embedded: files are lists of byte values
(`List Nat`, each element `< 256` by construction), machine integers are
`Nat` with explicit `% 2^w` at the points where the Go code can wrap
(`uint64` subtraction and addition, `uint32` truncation), and fallible
operations return `Option` / `Except`.
-/

namespace Proglog

def U32 : Nat := 2 ^ 32
def U64 : Nat := 2 ^ 64

/-- Wrapping `uint64` subtraction: `a - b` on the Go type `uint64`
(operands are first reduced mod `2^64`, as Go values always are). -/
def u64sub (a b : Nat) : Nat := (a % U64 + (U64 - b % U64)) % U64

/-- The Go truncation `uint32(x)` of an `int64` value `x`: the low 32
bits of the complement representation, i.e. the mathematical mod. -/
def u32ofInt (x : Int) : Nat := (x % (U32 : Int)).toNat

/-- Reinterpret a `uint64` bit pattern as a Go `int64`
(used by `int64(off - s.baseOffset)` in `segment.Read`). -/
def toInt64 (n : Nat) : Int :=
  if n % U64 < 2 ^ 63 then (n % U64 : Int) else (n % U64 : Int) - (U64 : Int)

/-- Big-endian encoding of the low `w` bytes of `n`
(the big-endian byte order of `encoding/binary`, the `enc` of the source). -/
def encBE : Nat → Nat → List Nat
  | 0, _ => []
  | w + 1, n => encBE w (n / 256) ++ [n % 256]

/-- Byte image of `enc.PutUint64`. -/
def encodeU64 (n : Nat) : List Nat := encBE 8 n

/-- Byte image of `enc.PutUint32`. -/
def encodeU32 (n : Nat) : List Nat := encBE 4 n

/-- Decoding `enc.Uint64` / `enc.Uint32`: big-endian over a byte slice. -/
def decodeBE (l : List Nat) : Nat := l.foldl (fun a b => a * 256 + b) 0

theorem encBE_length (w n : Nat) : (encBE w n).length = w := by
  induction w generalizing n with
  | zero => rfl
  | succ w ih => simp [encBE, ih]

theorem foldl_encBE (w n a : Nat) :
    (encBE w n).foldl (fun x b => x * 256 + b) a = a * 256 ^ w + n % 256 ^ w := by
  induction w generalizing n a with
  | zero => simp [encBE, Nat.mod_one]
  | succ w ih =>
    have h : n % (256 * 256 ^ w) = n % 256 + 256 * (n / 256 % 256 ^ w) := Nat.mod_mul
    simp only [encBE, List.foldl_append, List.foldl_cons, List.foldl_nil, ih]
    have hp : (256 : Nat) ^ (w + 1) = 256 * 256 ^ w := by ring
    rw [hp, h]
    ring

theorem pow256_8 : (256 : Nat) ^ 8 = U64 := by decide
theorem pow256_4 : (256 : Nat) ^ 4 = U32 := by decide

theorem decodeBE_encodeU64 (n : Nat) : decodeBE (encodeU64 n) = n % U64 := by
  have := foldl_encBE 8 n 0
  simpa [decodeBE, encodeU64, pow256_8] using this

theorem decodeBE_encodeU32 (n : Nat) : decodeBE (encodeU32 n) = n % U32 := by
  have := foldl_encBE 4 n 0
  simpa [decodeBE, encodeU32, pow256_4] using this

theorem encodeU64_length (n : Nat) : (encodeU64 n).length = 8 := encBE_length 8 n
theorem encodeU32_length (n : Nat) : (encodeU32 n).length = 4 := encBE_length 4 n

/-! ## Store (store.go)

A store is one append-only file of length-prefixed frames plus the
`size` field tracked by the Go struct.  The buffered writer is not
observable in the embedding: every read in the source flushes the
buffer first, so reads always see the full `data`. -/

def lenWidth : Nat := 8

structure Store where
  data : List Nat
  size : Nat
deriving Repr, DecidableEq

/-- Source `newStore`: `size` is read from the on-disk file length. -/
def newStore (fileData : List Nat) : Store :=
  { data := fileData, size := fileData.length % U64 }

/-- Source `store.Append`: write `be_u64(len p) || p`, return `(n, pos)` with
`pos` the size observed before the append and `n = 8 + len p`. -/
def Store.append (s : Store) (p : List Nat) : (Nat × Nat) × Store :=
  let pos := s.size
  let w := p.length + lenWidth
  ((w, pos), { data := s.data ++ encodeU64 p.length ++ p, size := (s.size + w) % U64 })

/-- Source `store.Read`: read the 8-byte length at `pos`, then that many payload
bytes at `pos + 8`; `ReadAt` past end-of-file is an error (`none`). -/
def Store.read (s : Store) (pos : Nat) : Option (List Nat) :=
  if pos + lenWidth ≤ s.data.length then
    let recordSize := decodeBE ((s.data.drop pos).take lenWidth)
    if pos + lenWidth + recordSize ≤ s.data.length then
      some ((s.data.drop (pos + lenWidth)).take recordSize)
    else none
  else none

/-- C6: `store.Append` returns `pos = S` (the size before the append) and
`n = 8 + len p`, writes the frame `be_u64(len p) || p`, and leaves the
size of the store equal to `S + n`. -/
theorem c6_store_append (s : Store) (p : List Nat)
    (h : s.size + (lenWidth + p.length) < U64) :
    (s.append p).1.1 = 8 + p.length ∧
    (s.append p).1.2 = s.size ∧
    (s.append p).2.data = s.data ++ encodeU64 p.length ++ p ∧
    (encodeU64 p.length).length = 8 ∧
    (s.append p).2.size = s.size + (8 + p.length) := by
  refine ⟨by simp [Store.append, lenWidth, Nat.add_comm], rfl, rfl, encodeU64_length _, ?_⟩
  simp only [Store.append]
  have : s.size + (p.length + lenWidth) < U64 := by simp [lenWidth] at h ⊢; omega
  rw [Nat.mod_eq_of_lt this]
  simp [lenWidth]; omega

/-- Witness for C6 at a concrete store and payload. -/
theorem c6_store_append_witness :
    let s : Store := ⟨[], 0⟩
    (s.append [104, 105]).1.1 = 8 + 2 ∧
    (s.append [104, 105]).1.2 = s.size ∧
    (s.append [104, 105]).2.data = s.data ++ encodeU64 2 ++ [104, 105] ∧
    (encodeU64 (2 : Nat)).length = 8 ∧
    (s.append [104, 105]).2.size = s.size + (8 + 2) :=
  c6_store_append ⟨[], 0⟩ [104, 105] (by decide)

/-! ## Index (index.go)

The index is the memory-mapped table of 12-byte entries.  `mmap` is the
mapping (its length is the file length after the pre-extension to
`MaxIndexBytes`); `size` is the number of valid entry bytes. -/

def offWidth : Nat := 4
def posWidth : Nat := 8
def entWidth : Nat := offWidth + posWidth

structure Index where
  mmap : List Nat
  size : Nat
deriving Repr, DecidableEq

/-- Truncate-or-zero-extend the bytes of a file to length `m`
(`os.Truncate(name, m)` pads with NUL bytes when growing). -/
def padTrunc (m : Nat) (l : List Nat) : List Nat :=
  l.take m ++ List.replicate (m - l.length) 0

/-- Source `newIndex`: record the current file length as `size`, then extend the
file to `maxIndexBytes` and map it. -/
def newIndex (fileData : List Nat) (maxIndexBytes : Nat) : Index :=
  { mmap := padTrunc maxIndexBytes fileData, size := fileData.length % U64 }

/-- Source `index.isMaxed`: no room in the mapping for one more entry. -/
def Index.isMaxed (i : Index) : Bool := i.mmap.length < i.size + entWidth

/-- Splice `bytes` into `l` starting at position `pos`
(the `enc.PutUint32` / `enc.PutUint64` writes into the mapping). -/
def writeBytes (l : List Nat) (pos : Nat) (bytes : List Nat) : List Nat :=
  l.take pos ++ bytes ++ l.drop (pos + bytes.length)

/-- Source `index.Write`: fail (`io.EOF`) when maxed, else write the 12-byte
entry `be_u32(off) || be_u64(pos)` at `size` and advance `size`. -/
def Index.write (i : Index) (off pos : Nat) : Option Index :=
  if i.isMaxed then none
  else some { mmap := writeBytes i.mmap i.size (encodeU32 off ++ encodeU64 pos),
              size := i.size + entWidth }

/-- The decoded pair stored at entry `k` of the mapping. -/
def Index.entryAt (i : Index) (k : Nat) : Nat × Nat :=
  (decodeBE ((i.mmap.drop (entWidth * k)).take offWidth),
   decodeBE ((i.mmap.drop (entWidth * k + offWidth)).take posWidth))

/-- Source `index.Read`: `none` is `io.EOF`.  `in = -1` selects the last entry;
otherwise `in` is truncated to `uint32` before the byte range is
computed, exactly as `uint32(in)` does in the source. -/
def Index.read (i : Index) (inp : Int) : Option (Nat × Nat) :=
  if i.size = 0 then none
  else
    let out : Nat :=
      if inp = -1 then u64sub (i.size / entWidth) 1 % U32
      else u32ofInt inp
    let pos := out * entWidth
    if i.size < pos + entWidth then none
    else some (i.entryAt out)

theorem entryAt_eq (i : Index) (k : Nat) :
    i.entryAt k = (decodeBE ((i.mmap.drop (12 * k)).take 4),
                   decodeBE ((i.mmap.drop (12 * k + 4)).take 8)) := rfl

/-- C7 (amended): `index.Read` fails with `EndOfIndex` when `size = 0`;
`in = -1` returns the last entry, number `size/12 - 1`; for `in ≥ 0` the
entry number is first truncated to `uint32` (`in mod 2^32`), the read
fails exactly when the byte range of that entry exceeds `size`, and otherwise
returns the 4-byte big-endian relative offset and 8-byte big-endian
position stored at that entry. -/
theorem c7_index_read_cases (i : Index) (inp : Int) :
    (i.size = 0 → i.read inp = none) ∧
    (i.size ≠ 0 → 12 ∣ i.size → i.size ≤ 12 * U32 → inp = -1 →
      i.read inp = some (i.entryAt (i.size / 12 - 1))) ∧
    (i.size ≠ 0 → 0 ≤ inp →
      i.read inp =
        if i.size < 12 * (inp.toNat % U32) + 12 then none
        else some (i.entryAt (inp.toNat % U32))) := by
  refine ⟨fun h => by simp [Index.read, h], fun h hdvd hle hinp => ?_, fun h hpos => ?_⟩
  · subst hinp
    have h12 : 12 ≤ i.size := (Nat.le_of_dvd (Nat.pos_of_ne_zero h) hdvd)
    have hq : 1 ≤ i.size / 12 := (Nat.one_le_div_iff (by norm_num)).mpr h12
    have hqlt : i.size / 12 ≤ U32 := by
      have := Nat.div_le_div_right (c := 12) hle
      simpa [Nat.mul_div_cancel_left] using this
    have hsub : u64sub (i.size / entWidth) 1 % U32 = i.size / 12 - 1 := by
      have hlt : i.size / 12 < U64 := lt_of_le_of_lt hqlt (by norm_num [U32, U64])
      have h1 : i.size / entWidth % U64 = i.size / 12 := by
        simpa [entWidth, offWidth, posWidth] using Nat.mod_eq_of_lt hlt
      have : u64sub (i.size / entWidth) 1 = i.size / 12 - 1 := by
        simp only [u64sub, h1]
        have : (1 : Nat) % U64 = 1 := by norm_num [U64]
        rw [this]
        have hU : 0 < U64 := by norm_num [U64]
        have heq : i.size / 12 + (U64 - 1) = (i.size / 12 - 1) + U64 := by omega
        rw [heq, Nat.add_mod_right, Nat.mod_eq_of_lt (by omega)]
      rw [this, Nat.mod_eq_of_lt]
      have : i.size / 12 - 1 < U32 := by
        rcases Nat.lt_or_ge (i.size / 12) U32 with h' | h'
        · omega
        · have : i.size / 12 = U32 := le_antisymm hqlt h'
          rw [this]; norm_num [U32]
      exact this
    have hrange : ¬ i.size < (i.size / 12 - 1) * entWidth + entWidth := by
      have : (i.size / 12 - 1) * 12 + 12 = (i.size / 12) * 12 := by omega
      have hdv : i.size / 12 * 12 = i.size := Nat.div_mul_cancel hdvd
      simp only [entWidth, offWidth, posWidth]
      omega
    simp only [Index.read, if_neg h, hsub]
    simp [if_neg hrange]
  · obtain ⟨m, rfl⟩ := Int.eq_ofNat_of_zero_le hpos
    have hu : u32ofInt (m : Int) = m % U32 := by
      unfold u32ofInt
      omega
    have hne : (m : Int) ≠ -1 := by omega
    simp only [Index.read, if_neg h, if_neg hne, hu, Int.toNat_natCast]
    have harith : m % U32 * entWidth + entWidth = 12 * (m % U32) + 12 := by
      simp only [entWidth, offWidth, posWidth]
      ring
    rw [harith]

/-- Witness for C7: a one-entry index, read with `in = -1` and `in = 0`. -/
theorem c7_index_read_cases_witness :
    (Index.read ⟨[0, 0, 0, 5, 0, 0, 0, 0, 0, 0, 0, 9], 12⟩ (-1) =
      some (Index.entryAt ⟨[0, 0, 0, 5, 0, 0, 0, 0, 0, 0, 0, 9], 12⟩ (12 / 12 - 1))) :=
  (c7_index_read_cases ⟨[0, 0, 0, 5, 0, 0, 0, 0, 0, 0, 0, 9], 12⟩ (-1)).2.1
    (by decide) (by decide) (by norm_num [U32]) rfl

/-- Counterexample to C7 as stated: with a single entry (`size = 12`) and
`in = 2^32`, the byte range `[12·2^32, 12·2^32+12)` exceeds `size`, so the
claim requires `EndOfIndex`; the code truncates `in` to `uint32` (giving
entry 0) and returns the stored entry instead. -/
theorem c7_counterexample :
    Index.read ⟨[0, 0, 0, 5, 0, 0, 0, 0, 0, 0, 0, 9], 12⟩ ((2 : Int) ^ 32) = some (5, 9) ∧
    (12 : Nat) < 12 * 2 ^ 32 + 12 := by
  constructor
  · rfl
  · norm_num

/-! ## Segment (segment.go)

A segment couples one store with one index.  Records carry an opaque
byte value and the stamped absolute offset. -/

structure Config where
  maxStoreBytes : Nat
  maxIndexBytes : Nat
  initialOffset : Nat
deriving Repr, DecidableEq

structure Rec where
  value : List Nat
  offset : Nat
deriving Repr, DecidableEq

/-- Modelled from the spec: the record serializer is supplied by the
request layer (`proto.Marshal` of `api.Record`, not part of the core
source); the spec requires only a deterministic, reversible mapping
`record ↔ bytes`, so we fix a concrete injective encoding: the 8-byte
big-endian stamped offset followed by the value bytes. -/
def marshal (r : Rec) : List Nat := encodeU64 r.offset ++ r.value

/-- Modelled from the spec: inverse of the serializer (`proto.Unmarshal`). -/
def unmarshal (p : List Nat) : Rec := ⟨p.drop 8, decodeBE (p.take 8)⟩

theorem unmarshal_marshal (r : Rec) (h : r.offset < U64) :
    unmarshal (marshal r) = r := by
  have h4 : (encodeU64 r.offset).length = 8 := encodeU64_length _
  cases r with
  | mk v o =>
    simp only [unmarshal, marshal]
    rw [List.drop_left' h4, List.take_left' h4]
    simp only at h
    simp [decodeBE_encodeU64, Nat.mod_eq_of_lt h]

structure Segment where
  store : Store
  index : Index
  baseOffset : Nat
  nextOffset : Nat
  config : Config
deriving Repr, DecidableEq

/-- Source `newSegment`: open (or create) the two backing files, then derive
`nextOffset` from the last index entry: `base` when the index is
empty, `base + last_relative + 1` otherwise. -/
def newSegment (storeData indexData : List Nat) (base : Nat) (c : Config) : Segment :=
  let st := newStore storeData
  let idx := newIndex indexData c.maxIndexBytes
  let next :=
    match idx.read (-1) with
    | none => base
    | some (off, _) => (base + off + 1) % U64
  { store := st, index := idx, baseOffset := base, nextOffset := next, config := c }

/-- A freshly created segment (both backing files empty). -/
def freshSegment (base : Nat) (c : Config) : Segment := newSegment [] [] base c

/-- Source `segment.Append`: stamp the offset, serialize, append to the store,
record `(uint32(nextOffset - baseOffset), pos)` in the index, bump
`nextOffset`.  On an index-write failure the store has already grown. -/
def Segment.append (s : Segment) (r : Rec) : Option Nat × Segment :=
  let cur := s.nextOffset
  let p := marshal { r with offset := cur }
  let res := s.store.append p
  let pos := res.1.2
  let store' := res.2
  match s.index.write (u64sub s.nextOffset s.baseOffset % U32) pos with
  | none => (none, { s with store := store' })
  | some idx' =>
      (some cur,
       { s with store := store', index := idx', nextOffset := (s.nextOffset + 1) % U64 })

/-- Source `segment.Read`: look up `int64(off - baseOffset)` in the index
(the `uint64` subtraction wraps and `index.Read` truncates to `uint32`),
then read the store at the returned position and deserialize. -/
def Segment.read (s : Segment) (off : Nat) : Option Rec :=
  match s.index.read (toInt64 (u64sub off s.baseOffset)) with
  | none => none
  | some (_, pos) =>
      match s.store.read pos with
      | none => none
      | some p => some (unmarshal p)

/-- Source `segment.IsMaxed`. -/
def Segment.isMaxed (s : Segment) : Bool :=
  decide (s.config.maxStoreBytes ≤ s.store.size) ||
  decide (s.config.maxIndexBytes ≤ s.index.size) ||
  s.index.isMaxed

/-- C8: `is_maxed()` is true iff the store size reached
`max_store_bytes`, or the index size reached `max_index_bytes`, or the
mapping has no room for one more 12-byte entry. -/
theorem c8_segment_is_maxed (s : Segment) :
    s.isMaxed = true ↔
      (s.config.maxStoreBytes ≤ s.store.size ∨
       s.config.maxIndexBytes ≤ s.index.size ∨
       s.index.mmap.length < s.index.size + 12) := by
  simp [Segment.isMaxed, Index.isMaxed, entWidth, offWidth, posWidth, or_assoc]

/-- A concrete segment whose base offset is `2^32` and which holds one
record (relative offset 0, position 0): used to exhibit the read-below-
base wrap of C9. -/
def segBelowBase : Segment :=
  { store := ⟨encodeU64 9 ++ encodeU64 (2 ^ 32) ++ [42], 17⟩,
    index := ⟨encodeU32 0 ++ encodeU64 0, 12⟩,
    baseOffset := 2 ^ 32,
    nextOffset := 2 ^ 32 + 1,
    config := ⟨1024, 1024, 0⟩ }

/-- C9: `index.Read` interprets a non-negative entry number modulo
`2^32`, and consequently `segment.Read(off)` with `off < base_offset`
can wrap the `u64` subtraction, truncate it to 32 bits, and return an
existing entry instead of an error: reading offset `0` from a segment
based at `2^32` returns the record stored at the segment base. -/
theorem c9_u32_truncation (i : Index) (inp : Int) (h : 0 ≤ inp) :
    i.read inp = i.read (inp % ((2 : Int) ^ 32)) ∧
    (segBelowBase.baseOffset = 2 ^ 32 ∧ (0 : Nat) < segBelowBase.baseOffset ∧
     segBelowBase.read 0 = some ⟨[42], 2 ^ 32⟩) := by
  refine ⟨?_, rfl, by decide, by decide⟩
  obtain ⟨m, rfl⟩ := Int.eq_ofNat_of_zero_le h
  have hmod : u32ofInt ((m : Int) % (2 : Int) ^ 32) = u32ofInt (m : Int) := by
    unfold u32ofInt
    rw [show ((U32 : Nat) : Int) = (2 : Int) ^ 32 by norm_num [U32]]
    rw [Int.emod_emod_of_dvd _ dvd_rfl]
  have hne1 : (m : Int) ≠ -1 := by omega
  have hne2 : (m : Int) % (2 : Int) ^ 32 ≠ -1 := by
    have : 0 ≤ (m : Int) % (2 : Int) ^ 32 := Int.emod_nonneg _ (by norm_num)
    omega
  simp only [Index.read, if_neg hne1, if_neg hne2, hmod]

/-- Witness for C9 at `in = 2^32 + 3` (truncates to entry 3). -/
theorem c9_u32_truncation_witness :
    Index.read ⟨[], 0⟩ ((2 : Int) ^ 32 + 3) =
      Index.read ⟨[], 0⟩ (((2 : Int) ^ 32 + 3) % (2 : Int) ^ 32) ∧
    (segBelowBase.baseOffset = 2 ^ 32 ∧ (0 : Nat) < segBelowBase.baseOffset ∧
     segBelowBase.read 0 = some ⟨[42], 2 ^ 32⟩) :=
  c9_u32_truncation ⟨[], 0⟩ ((2 : Int) ^ 32 + 3) (by norm_num)

/-! ## Log (log.go)

The log orchestrates the ordered segment list.  Go runtime panics
(indexing an empty slice in `highestOffset` / `LowestOffset`) are
modelled as the distinguished error `oob`; `fmt.Errorf("offset out of
range: ...")` is `offsetOutOfRange`; `io.EOF` surfaced from below is
`eof`. -/

inductive LogErr where
  | oob
  | offsetOutOfRange
  | eof
deriving Repr, DecidableEq

instance {ε α : Type} [DecidableEq ε] [DecidableEq α] : DecidableEq (Except ε α)
  | .ok a, .ok b => if h : a = b then .isTrue (by rw [h]) else .isFalse (by simp [h])
  | .ok _, .error _ => .isFalse (by simp)
  | .error _, .ok _ => .isFalse (by simp)
  | .error e, .error f => if h : e = f then .isTrue (by rw [h]) else .isFalse (by simp [h])

structure Log where
  config : Config
  segments : List Segment
  activeSegment : Segment
deriving Repr, DecidableEq

/-- The defaulting in `NewLog` of zero thresholds to 1024. -/
def withDefaults (c : Config) : Config :=
  { c with
    maxStoreBytes := if c.maxStoreBytes = 0 then 1024 else c.maxStoreBytes,
    maxIndexBytes := if c.maxIndexBytes = 0 then 1024 else c.maxIndexBytes }

/-- A directory entry: base offset (the filename stem) with the bytes of
its `.store` and `.index` files. -/
def DirEnt : Type := Nat × List Nat × List Nat

/-- Sorting `sort.Slice` on the parsed base offsets (insertion sort). -/
def insertSorted (x : Nat) : List Nat → List Nat
  | [] => [x]
  | y :: ys => if x ≤ y then x :: y :: ys else y :: insertSorted x ys

def isort (l : List Nat) : List Nat := l.foldr insertSorted []

/-- The stride-2 deduplication of `setup`: every base offset appears twice in
the sorted list (once per `.store`/`.index` pair), and the loop skips
every other element. -/
def everyOther : List Nat → List Nat
  | [] => []
  | [a] => [a]
  | a :: _ :: rest => a :: everyOther rest

/-- Open the segment for base `b`: the bytes of its files if present in the
directory, else freshly created empty files (`O_CREATE`). -/
def openSegOf (dir : List DirEnt) (c : Config) (b : Nat) : Segment :=
  match dir.find? (fun e => e.1 == b) with
  | some e => newSegment e.2.1 e.2.2 b c
  | none => freshSegment b c

/-- Source `NewLog` + `setup`: parse a base offset from each file name (each
base appears once per extension), sort, open every other one in order;
the last opened segment is active.  With no existing files, create one
fresh segment at `initialOffset`. -/
def logOfDir (dir : List DirEnt) (c : Config) : Log :=
  let c' := withDefaults c
  let bases := everyOther (isort (dir.flatMap (fun e => [e.1, e.1])))
  match bases.map (openSegOf dir c') with
  | [] =>
      let s := freshSegment c'.initialOffset c'
      { config := c', segments := [s], activeSegment := s }
  | s :: rest =>
      { config := c', segments := s :: rest, activeSegment := (s :: rest).getLast (by simp) }

def newLog (c : Config) : Log := logOfDir [] c

/-- Source `Log.highestOffset` (private helper): reads
`segments[len(segments)-1]`, which panics (`oob`) on an empty slice. -/
def Log.highestOffsetAux (l : Log) : Except LogErr Nat :=
  match l.segments.getLast? with
  | none => .error .oob
  | some s => if s.nextOffset = 0 then .ok 0 else .ok (s.nextOffset - 1)

def Log.highestOffset (l : Log) : Except LogErr Nat := l.highestOffsetAux

/-- Source `Log.LowestOffset`: reads `segments[0]`, panicking on empty. -/
def Log.lowestOffset (l : Log) : Except LogErr Nat :=
  match l.segments.head? with
  | none => .error .oob
  | some s => .ok s.baseOffset

/-- Source `Log.Read`: route to the first segment with
`baseOffset ≤ off < nextOffset`. -/
def Log.read (l : Log) (off : Nat) : Except LogErr Rec :=
  match l.segments.find? (fun s => decide (s.baseOffset ≤ off) && decide (off < s.nextOffset)) with
  | none => .error .offsetOutOfRange
  | some s =>
      match s.read off with
      | none => .error .eof
      | some r => .ok r

/-- Source `Log.newSegment`: append a fresh segment and make it active. -/
def Log.newSegmentAt (l : Log) (base : Nat) : Log :=
  let s := freshSegment base l.config
  { l with segments := l.segments ++ [s], activeSegment := s }

/-- Mutating the active segment in place also mutates the last list
element, since the Go `activeSegment` pointer aliases it. -/
def Log.setActive (l : Log) (s : Segment) : Log :=
  { l with activeSegment := s, segments := l.segments.dropLast ++ [s] }

/-- Source `Log.Append`: compute the highest offset, roll if the active segment
is maxed (new base `highestOffset + 1`), then append to the active
segment. -/
def Log.append (l : Log) (r : Rec) : Except LogErr Nat × Log :=
  match l.highestOffsetAux with
  | .error e => (.error e, l)
  | .ok highest =>
      let l1 := if l.activeSegment.isMaxed then l.newSegmentAt ((highest + 1) % U64) else l
      let res := l1.activeSegment.append r
      let l2 := l1.setActive res.2
      match res.1 with
      | none => (.error .eof, l2)
      | some off => (.ok off, l2)

/-- Source `Log.Truncate`: remove every segment with
`nextOffset ≤ lowest + 1`; the active-segment pointer is not touched. -/
def Log.truncate (l : Log) (lowest : Nat) : Log :=
  { l with segments := l.segments.filter (fun s => decide (lowest + 1 < s.nextOffset)) }

/-- Source `Log.Close`: per segment, the index close truncates the index file
back to `size`; this is the resulting on-disk directory. -/
def Log.closeDir (l : Log) : List DirEnt :=
  l.segments.map (fun s => (s.baseOffset, s.store.data, s.index.mmap.take s.index.size))

/-- Append a list of values in order (each `Log.Append` call stamps the
offset itself, so the input offset field is arbitrary). -/
def Log.appendList (l : Log) (vs : List (List Nat)) : Log :=
  vs.foldl (fun acc v => (acc.append ⟨v, 0⟩).2) l

theorem padTrunc_nil (m : Nat) : padTrunc m [] = List.replicate m 0 := by
  simp [padTrunc]

theorem freshSegment_eq (base : Nat) (c : Config) :
    freshSegment base c =
      { store := ⟨[], 0⟩, index := ⟨List.replicate c.maxIndexBytes 0, 0⟩,
        baseOffset := base, nextOffset := base, config := c } := by
  simp [freshSegment, newSegment, newIndex, newStore, padTrunc, Index.read, Nat.zero_mod]

theorem u64sub_self (a : Nat) : u64sub a a = 0 := by
  have h : a % U64 < U64 := Nat.mod_lt _ (by norm_num [U64])
  simp only [u64sub]
  have : a % U64 + (U64 - a % U64) = U64 := by omega
  rw [this, Nat.mod_self]

/-- Counterexample to C3 as stated: a fresh log with `initial_offset = 5`
contains no records, yet `HighestOffset` returns `4`, not `0` (the code
tests `nextOffset == 0`, not "no records"). -/
theorem c3_counterexample :
    (newLog ⟨0, 24, 5⟩).highestOffset = .ok 4 ∧
    (Except.ok 4 : Except LogErr Nat) ≠ .ok 0 := by
  constructor
  · rfl
  · decide

/-- C4: when the active segment reports maxed before the write, `Append`
creates a new segment based at `highestOffset + 1` (computed just before
the check), makes it the active segment (still the last), appends the
record there, and the assigned offset equals the new base. -/
theorem c4_roll_on_maxed (l : Log) (r : Rec) (hval : Nat)
    (hfull : l.activeSegment.isMaxed = true)
    (hh : l.highestOffsetAux = .ok hval)
    (hM : 12 ≤ l.config.maxIndexBytes)
    (hlt : hval + 1 < U64) :
    (l.append r).1 = .ok (hval + 1) ∧
    (l.append r).2.activeSegment.baseOffset = hval + 1 ∧
    (l.append r).2.segments.getLast? = some (l.append r).2.activeSegment ∧
    (l.append r).2.activeSegment.nextOffset = (hval + 1 + 1) % U64 ∧
    (l.append r).2.activeSegment.store.data =
      encodeU64 (marshal ⟨r.value, hval + 1⟩).length ++ marshal ⟨r.value, hval + 1⟩ := by
  have hbase : (hval + 1) % U64 = hval + 1 := Nat.mod_eq_of_lt hlt
  have hwrite :
      (freshSegment (hval + 1) l.config).index.write
          (u64sub (hval + 1) (hval + 1) % U32) 0 =
        some ⟨writeBytes (List.replicate l.config.maxIndexBytes 0) 0
                (encodeU32 (u64sub (hval + 1) (hval + 1) % U32) ++ encodeU64 0), 12⟩ := by
    rw [freshSegment_eq]
    simp only [Index.write, Index.isMaxed, List.length_replicate, entWidth, offWidth, posWidth]
    have : ¬ l.config.maxIndexBytes < 0 + (4 + 8) := by omega
    simp [this]
  simp only [Log.append, hh, hfull, if_true, Log.newSegmentAt, hbase]
  simp only [Segment.append, Store.append, Log.setActive, freshSegment_eq] at *
  simp only [List.nil_append, List.length_nil] at *
  rw [hwrite]
  simp [List.getLast?_concat]

/-- Witness for C4: a log whose single segment has a full index
(capacity one entry, one record present) rolls on the next append. -/
theorem c4_roll_on_maxed_witness :
    let l := Log.appendList (newLog ⟨0, 12, 0⟩) [[7]]
    (l.append ⟨[8], 0⟩).1 = .ok (0 + 1) ∧
    (l.append ⟨[8], 0⟩).2.activeSegment.baseOffset = 0 + 1 ∧
    (l.append ⟨[8], 0⟩).2.segments.getLast? = some (l.append ⟨[8], 0⟩).2.activeSegment ∧
    (l.append ⟨[8], 0⟩).2.activeSegment.nextOffset = (0 + 1 + 1) % U64 ∧
    (l.append ⟨[8], 0⟩).2.activeSegment.store.data =
      encodeU64 (marshal ⟨[8], 0 + 1⟩).length ++ marshal ⟨[8], 0 + 1⟩ :=
  c4_roll_on_maxed (Log.appendList (newLog ⟨0, 12, 0⟩) [[7]]) ⟨[8], 0⟩ 0
    (by decide) (by decide) (by decide) (by norm_num [U64])

/-- C10 (amended): `Truncate` never recreates a segment and never
updates the active-segment pointer.  When every segment satisfies
`nextOffset ≤ lowest + 1`, the segment list becomes empty while
`activeSegment` still holds the old (removed) active segment; every
subsequent `Append`, `LowestOffset` or `HighestOffset` indexes the empty
slice (`segments[0]` / `segments[len-1]`, a runtime panic), while `Read`
scans the empty list and returns `OffsetOutOfRange`. -/
theorem c10_truncate_all (l : Log) (lw : Nat)
    (hall : ∀ s ∈ l.segments, s.nextOffset ≤ lw + 1) :
    ((l.truncate lw).segments = [] ∧
     (l.truncate lw).activeSegment = l.activeSegment) ∧
    (∀ r, ((l.truncate lw).append r).1 = .error .oob ∧
          ((l.truncate lw).append r).2 = l.truncate lw) ∧
    (l.truncate lw).lowestOffset = .error .oob ∧
    (l.truncate lw).highestOffset = .error .oob ∧
    (∀ o, (l.truncate lw).read o = .error .offsetOutOfRange) := by
  have hnil : (l.truncate lw).segments = [] := by
    simp only [Log.truncate]
    rw [List.filter_eq_nil_iff]
    intro s hs
    have := hall s hs
    simp only [decide_eq_true_eq]
    omega
  refine ⟨⟨hnil, rfl⟩, fun r => ?_, ?_, ?_, fun o => ?_⟩
  · simp [Log.append, Log.highestOffsetAux, hnil]
  · simp [Log.lowestOffset, hnil]
  · simp [Log.highestOffset, Log.highestOffsetAux, hnil]
  · simp [Log.read, hnil]

/-- Witness for C10 at a one-record log truncated at its highest offset. -/
theorem c10_truncate_all_witness :
    let l := Log.appendList (newLog ⟨0, 24, 0⟩) [[7]]
    ((l.truncate 0).segments = [] ∧
     (l.truncate 0).activeSegment = l.activeSegment) ∧
    (∀ r, ((l.truncate 0).append r).1 = .error .oob ∧
          ((l.truncate 0).append r).2 = l.truncate 0) ∧
    (l.truncate 0).lowestOffset = .error .oob ∧
    (l.truncate 0).highestOffset = .error .oob ∧
    (∀ o, (l.truncate 0).read o = .error .offsetOutOfRange) :=
  c10_truncate_all (Log.appendList (newLog ⟨0, 24, 0⟩) [[7]]) 0 (by decide)

/-- Counterexample to C10 as stated: after a truncate that removes every
segment, `Read` does not blindly index the empty list — it scans it,
finds no covering segment, and returns `OffsetOutOfRange`, contradicting
the claim that it does so "rather than returning OffsetOutOfRange". -/
theorem c10_counterexample :
    ((Log.appendList (newLog ⟨0, 24, 0⟩) [[7]]).truncate 0).segments = [] ∧
    ((Log.appendList (newLog ⟨0, 24, 0⟩) [[7]]).truncate 0).read 0 =
      .error .offsetOutOfRange := by
  constructor
  · rfl
  · rfl

/-- Counterexample to C2 as stated: with `max_index_bytes = 24` two
records share one segment `[0..1]` (`nextOffset = 2`).  `Truncate(0)`
keeps that segment (`2 > 0 + 1`), so `Read(0)` still returns the first
record even though `0 ≤ L = 0`, where the claim demands
`OffsetOutOfRange`. -/
theorem c2_counterexample :
    ((Log.appendList (newLog ⟨0, 24, 0⟩) [[7], [8]]).truncate 0).read 0 =
      .ok ⟨[7], 0⟩ := by
  rfl

/-! ## Content description of reachable states

The store of a reachable segment is the concatenation of the frames of its
marshalled records; its index mapping is the concatenation of the
12-byte entries `(relative offset, frame position)` followed by the
zero bytes of the pre-extension. -/

/-- One store frame. -/
def frameOf (p : List Nat) : List Nat := encodeU64 p.length ++ p

def framesOf : List (List Nat) → List Nat
  | [] => []
  | p :: ps => frameOf p ++ framesOf ps

/-- Total frame bytes of a payload list. -/
def sumLen : List (List Nat) → Nat
  | [] => 0
  | p :: ps => (8 + p.length) + sumLen ps

/-- Index entry bytes for payloads `ps`, starting at relative offset `k`
and store position `pos`. -/
def entriesAux (k pos : Nat) : List (List Nat) → List Nat
  | [] => []
  | p :: ps => encodeU32 k ++ encodeU64 pos ++ entriesAux (k + 1) (pos + (8 + p.length)) ps

/-- The marshalled payloads of values `vs` stamped with consecutive
offsets starting at `base`. -/
def payloads (base : Nat) : List (List Nat) → List (List Nat)
  | [] => []
  | v :: vs => marshal ⟨v, base⟩ :: payloads (base + 1) vs

/-- Frame bytes contributed by a value list (independent of offsets). -/
def weight (vs : List (List Nat)) : Nat := sumLen (payloads 0 vs)

theorem frameOf_length (p : List Nat) : (frameOf p).length = 8 + p.length := by
  simp [frameOf, encodeU64_length]

theorem framesOf_append (ps qs : List (List Nat)) :
    framesOf (ps ++ qs) = framesOf ps ++ framesOf qs := by
  induction ps with
  | nil => simp [framesOf]
  | cons p ps ih => simp [framesOf, ih]

theorem framesOf_length (ps : List (List Nat)) : (framesOf ps).length = sumLen ps := by
  induction ps with
  | nil => simp [framesOf, sumLen]
  | cons p ps ih => simp [framesOf, sumLen, frameOf_length, ih]

theorem sumLen_append (ps qs : List (List Nat)) :
    sumLen (ps ++ qs) = sumLen ps + sumLen qs := by
  induction ps with
  | nil => simp [sumLen]
  | cons p ps ih => simp [sumLen, ih]; omega

theorem sumLen_take_le (ps : List (List Nat)) (j : Nat) :
    sumLen (ps.take j) ≤ sumLen ps := by
  induction ps generalizing j with
  | nil => simp [sumLen]
  | cons p ps ih =>
    cases j with
    | zero => simp [sumLen]
    | succ j => simp only [List.take_succ_cons, sumLen]; have := ih j; omega

theorem payloads_length (base : Nat) (vs : List (List Nat)) :
    (payloads base vs).length = vs.length := by
  induction vs generalizing base with
  | nil => simp [payloads]
  | cons v vs ih => simp [payloads, ih]

theorem payloads_append_general (vs ws : List (List Nat)) (b : Nat) :
    payloads b (vs ++ ws) = payloads b vs ++ payloads (b + vs.length) ws := by
  induction vs generalizing b with
  | nil => simp [payloads]
  | cons w vs ih =>
    calc payloads b ((w :: vs) ++ ws)
        = marshal ⟨w, b⟩ :: payloads (b + 1) (vs ++ ws) := rfl
      _ = marshal ⟨w, b⟩ :: (payloads (b + 1) vs ++ payloads (b + 1 + vs.length) ws) := by
            rw [ih (b + 1)]
      _ = payloads b (w :: vs) ++ payloads (b + (w :: vs).length) ws := by
            have h : b + 1 + vs.length = b + (vs.length + 1) := by omega
            simp [payloads, h]

theorem payloads_append (base : Nat) (vs : List (List Nat)) (v : List Nat) :
    payloads base (vs ++ [v]) = payloads base vs ++ [marshal ⟨v, base + vs.length⟩] := by
  rw [payloads_append_general]
  rfl

theorem payloads_getElem (base : Nat) (vs : List (List Nat)) (k : Nat)
    (hk : k < vs.length) (hk2 : k < (payloads base vs).length) :
    (payloads base vs)[k] = marshal ⟨vs[k], base + k⟩ := by
  induction vs generalizing base k with
  | nil => simp at hk
  | cons v vs ih =>
    cases k with
    | zero => rfl
    | succ k =>
      have hk' : k < vs.length := by simpa using Nat.lt_of_succ_lt_succ hk
      have hk2' : k < (payloads (base + 1) vs).length := by
        rw [payloads_length]
        exact hk'
      have step : (payloads base (v :: vs))[k + 1] = (payloads (base + 1) vs)[k] := rfl
      rw [step, ih (base + 1) k hk' hk2']
      have h : base + 1 + k = base + (k + 1) := by omega
      rw [h]
      rfl

theorem sumLen_payloads (base : Nat) (vs : List (List Nat)) :
    sumLen (payloads base vs) = weight vs := by
  have key : ∀ b b' : Nat, sumLen (payloads b vs) = sumLen (payloads b' vs) := by
    intro b b'
    induction vs generalizing b b' with
    | nil => rfl
    | cons v vs ih => simp [payloads, sumLen, marshal, encodeU64_length, ih (b + 1) (b' + 1)]
  exact key base 0

theorem weight_append (vs ws : List (List Nat)) :
    weight (vs ++ ws) = weight vs + weight ws := by
  unfold weight
  rw [payloads_append_general, sumLen_append, sumLen_payloads, sumLen_payloads, sumLen_payloads]

theorem entriesAux_length (k pos : Nat) (ps : List (List Nat)) :
    (entriesAux k pos ps).length = 12 * ps.length := by
  induction ps generalizing k pos with
  | nil => simp [entriesAux]
  | cons p ps ih =>
    simp [entriesAux, encodeU32_length, encodeU64_length, ih]
    omega

theorem entriesAux_append (k pos : Nat) (ps : List (List Nat)) (p : List Nat) :
    entriesAux k pos (ps ++ [p]) =
      entriesAux k pos ps ++ (encodeU32 (k + ps.length) ++ encodeU64 (pos + sumLen ps)) := by
  induction ps generalizing k pos with
  | nil => simp [entriesAux, sumLen]
  | cons q ps ih =>
    calc entriesAux k pos ((q :: ps) ++ [p])
        = encodeU32 k ++ encodeU64 pos ++
            entriesAux (k + 1) (pos + (8 + q.length)) (ps ++ [p]) := rfl
      _ = encodeU32 k ++ encodeU64 pos ++
            (entriesAux (k + 1) (pos + (8 + q.length)) ps ++
              (encodeU32 (k + 1 + ps.length) ++
               encodeU64 (pos + (8 + q.length) + sumLen ps))) := by
            rw [ih (k + 1) (pos + (8 + q.length))]
      _ = entriesAux k pos (q :: ps) ++
            (encodeU32 (k + (q :: ps).length) ++ encodeU64 (pos + sumLen (q :: ps))) := by
            have h1 : k + 1 + ps.length = k + (ps.length + 1) := by omega
            have h2 : pos + (8 + q.length) + sumLen ps = pos + ((8 + q.length) + sumLen ps) := by
              omega
            simp [entriesAux, sumLen, h1, h2, List.append_assoc]

/-- The 4-byte slice at entry `j` of the entry block (with anything
appended after it) is the encoded relative offset `k + j`. -/
theorem entries_slice_off (ps : List (List Nat)) (rest : List Nat) :
    ∀ (k pos j : Nat), j < ps.length →
      ((entriesAux k pos ps ++ rest).drop (12 * j)).take 4 = encodeU32 (k + j) := by
  induction ps with
  | nil => intro k pos j hj; simp at hj
  | cons p ps ih =>
    intro k pos j hj
    cases j with
    | zero =>
      simp only [entriesAux, Nat.mul_zero, List.drop_zero, List.append_assoc]
      rw [List.take_left' (encodeU32_length _)]
      simp
    | succ j =>
      have hshift : (12 : Nat) * (j + 1) = 12 + 12 * j := by ring
      simp only [entriesAux, hshift, List.append_assoc]
      rw [show (encodeU32 k ++ (encodeU64 pos ++
            (entriesAux (k + 1) (pos + (8 + p.length)) ps ++ rest))).drop (12 + 12 * j) =
          ((encodeU32 k ++ encodeU64 pos) ++
            (entriesAux (k + 1) (pos + (8 + p.length)) ps ++ rest)).drop
              ((encodeU32 k ++ encodeU64 pos).length + 12 * j) from ?_,
          List.drop_append]
      · rw [ih (k + 1) (pos + (8 + p.length)) j (by simpa using Nat.lt_of_succ_lt_succ hj)]
        have : k + 1 + j = k + (j + 1) := by omega
        rw [this]
      · simp [encodeU32_length, encodeU64_length]

/-- The 8-byte slice at entry `j` (offset 4) is the encoded store
position of payload `j`. -/
theorem entries_slice_pos (ps : List (List Nat)) (rest : List Nat) :
    ∀ (k pos j : Nat), j < ps.length →
      ((entriesAux k pos ps ++ rest).drop (12 * j + 4)).take 8 =
        encodeU64 (pos + sumLen (ps.take j)) := by
  induction ps with
  | nil => intro k pos j hj; simp at hj
  | cons p ps ih =>
    intro k pos j hj
    cases j with
    | zero =>
      simp only [Nat.mul_zero, Nat.zero_add, entriesAux, List.append_assoc]
      rw [show (encodeU32 k ++ (encodeU64 pos ++
            (entriesAux (k + 1) (pos + (8 + p.length)) ps ++ rest))).drop 4 =
          (encodeU32 k ++ (encodeU64 pos ++
            (entriesAux (k + 1) (pos + (8 + p.length)) ps ++ rest))).drop
              ((encodeU32 k).length + 0) from ?_,
          List.drop_append]
      · simp only [List.drop_zero, List.take_succ_cons]
        rw [List.take_left' (encodeU64_length _)]
        simp [sumLen]
      · simp [encodeU32_length]
    | succ j =>
      have hshift : (12 : Nat) * (j + 1) + 4 = 12 + (12 * j + 4) := by ring
      simp only [entriesAux, hshift, List.append_assoc]
      rw [show (encodeU32 k ++ (encodeU64 pos ++
            (entriesAux (k + 1) (pos + (8 + p.length)) ps ++ rest))).drop (12 + (12 * j + 4)) =
          ((encodeU32 k ++ encodeU64 pos) ++
            (entriesAux (k + 1) (pos + (8 + p.length)) ps ++ rest)).drop
              ((encodeU32 k ++ encodeU64 pos).length + (12 * j + 4)) from ?_,
          List.drop_append]
      · rw [ih (k + 1) (pos + (8 + p.length)) j (by simpa using Nat.lt_of_succ_lt_succ hj)]
        simp only [List.take_succ_cons, sumLen]
        have : pos + (8 + p.length) + sumLen (ps.take j) =
            pos + (8 + p.length + sumLen (ps.take j)) := by omega
        rw [this]
      · simp [encodeU32_length, encodeU64_length]

/-- Reading a store whose data is a flat frame list at the start
position of frame `j` returns payload `j`. -/
theorem store_read_frames (ps : List (List Nat)) (sz : Nat)
    (hb : sumLen ps < U64) :
    ∀ (j : Nat), (hj : j < ps.length) →
      Store.read ⟨framesOf ps, sz⟩ (sumLen (ps.take j)) = some ps[j] := by
  induction ps with
  | nil => intro j hj; simp at hj
  | cons p ps ih =>
    intro j hj
    cases j with
    | zero =>
      simp only [List.take_zero, sumLen, Store.read, framesOf, frameOf, List.append_assoc,
        List.drop_zero]
      have hlen : (encodeU64 p.length ++ (p ++ framesOf ps)).length =
          8 + p.length + sumLen ps := by
        simp [encodeU64_length, framesOf_length]
        omega
      have hg1 : 0 + lenWidth ≤ (encodeU64 p.length ++ (p ++ framesOf ps)).length := by
        rw [hlen]; simp [lenWidth]; omega
      rw [if_pos hg1]
      have hdec : decodeBE ((encodeU64 p.length ++ (p ++ framesOf ps)).take lenWidth) =
          p.length := by
        rw [show (lenWidth : Nat) = (encodeU64 p.length).length from (encodeU64_length _).symm,
          List.take_left, decodeBE_encodeU64]
        have : p.length < U64 := by simp [sumLen] at hb; omega
        exact Nat.mod_eq_of_lt this
      rw [hdec]
      have hg2 : 0 + lenWidth + p.length ≤ (encodeU64 p.length ++ (p ++ framesOf ps)).length := by
        rw [hlen]; simp only [lenWidth]; omega
      rw [if_pos hg2]
      congr 1
      rw [show (0 + lenWidth : Nat) = (encodeU64 p.length).length from by
            simp [lenWidth, encodeU64_length],
        List.drop_left]
      rw [List.take_left' rfl]
      simp
    | succ j =>
      have hb' : sumLen ps < U64 := by simp [sumLen] at hb; omega
      have hj' : j < ps.length := by simpa using Nat.lt_of_succ_lt_succ hj
      have ihj := ih hb' j hj'
      simp only [List.take_succ_cons, sumLen, framesOf]
      have hshift : ∀ n, Store.read ⟨frameOf p ++ framesOf ps, sz⟩ ((8 + p.length) + n) =
          Store.read ⟨framesOf ps, sz⟩ n := by
        intro n
        simp only [Store.read, List.length_append, frameOf_length]
        rw [show (8 + p.length + n : Nat) = (frameOf p).length + n from by
              rw [frameOf_length],
          List.drop_append]
        rw [show (frameOf p).length + n + lenWidth = (frameOf p).length + (n + lenWidth) from by
              omega,
          List.drop_append]
        have hiff : ∀ m : Nat, ((frameOf p).length + n + m ≤ (frameOf p).length +
            (framesOf ps).length) ↔ (n + m ≤ (framesOf ps).length) := by
          intro m; omega
        by_cases h1 : n + lenWidth ≤ (framesOf ps).length
        · rw [if_pos (by rw [frameOf_length] at *; omega), if_pos h1]
          by_cases h2 : n + lenWidth + decodeBE ((framesOf ps).drop n |>.take lenWidth) ≤
              (framesOf ps).length
          · rw [if_pos (by rw [frameOf_length] at *; omega), if_pos h2]
          · rw [if_neg (by rw [frameOf_length] at *; omega), if_neg h2]
        · rw [if_neg (by rw [frameOf_length] at *; omega), if_neg h1]
      rw [hshift (sumLen (ps.take j)), ihj]
      simp

theorem u64sub_add (b k : Nat) (h : b + k < U64) : u64sub (b + k) b = k := by
  have hb : b % U64 = b := Nat.mod_eq_of_lt (by omega)
  have hbk : (b + k) % U64 = b + k := Nat.mod_eq_of_lt h
  simp only [u64sub, hb, hbk]
  have h1 : b + k + (U64 - b) = k + U64 := by omega
  rw [h1, Nat.add_mod_right, Nat.mod_eq_of_lt (by omega)]

theorem toInt64_small (k : Nat) (h : k < 2 ^ 63) : toInt64 k = (k : Int) := by
  have hk : k % U64 = k := Nat.mod_eq_of_lt (by simp only [U64]; omega)
  unfold toInt64
  rw [hk, if_pos h,
    show ((U64 : Nat) : Int) = (2 : Int) ^ 64 from by norm_num [U64]]
  omega

theorem entWidth_eq : entWidth = 12 := rfl
theorem offWidth_eq : offWidth = 4 := rfl
theorem posWidth_eq : posWidth = 8 := rfl

/-- Reading an entry block: entry `k` decodes to the relative
offset `k` and the start position of payload `k`. -/
theorem index_read_entries (ps : List (List Nat)) (rest : List Nat) (k : Nat)
    (hk : k < ps.length) (hklt : k < U32) (hpos : sumLen (ps.take k) < U64) :
    Index.read ⟨entriesAux 0 0 ps ++ rest, 12 * ps.length⟩ (k : Int) =
      some (k, sumLen (ps.take k)) := by
  have hsz : ¬ (12 * ps.length = 0) := by omega
  have hne : (k : Int) ≠ -1 := by omega
  have hklt2 : k < 2 ^ 32 := by simpa [U32] using hklt
  have hu : u32ofInt (k : Int) = k := by
    unfold u32ofInt
    rw [show ((U32 : Nat) : Int) = (2 : Int) ^ 32 from by norm_num [U32]]
    omega
  have hguard : ¬ (12 * ps.length < k * entWidth + entWidth) := by
    rw [entWidth_eq]; omega
  simp only [Index.read, if_neg hsz, if_neg hne, hu, if_neg hguard]
  unfold Index.entryAt
  simp only [entWidth_eq, offWidth_eq, posWidth_eq]
  rw [entries_slice_off ps rest 0 0 k hk, entries_slice_pos ps rest 0 0 k hk]
  simp only [Nat.zero_add]
  rw [decodeBE_encodeU32, decodeBE_encodeU64,
    Nat.mod_eq_of_lt hklt, Nat.mod_eq_of_lt hpos]

/-- The in-memory state of a reachable segment as a function of the value
list it holds: the store is the frame concatenation, the index mapping
is the entry block followed by the zero-filled pre-extension, and
`nextOffset = base + count`. -/
structure SegMirrors (s : Segment) (c : Config) (base : Nat)
    (vals : List (List Nat)) : Prop where
  config_eq : s.config = c
  base_eq : s.baseOffset = base
  next_eq : s.nextOffset = base + vals.length
  store_data : s.store.data = framesOf (payloads base vals)
  store_size : s.store.size = s.store.data.length
  index_size : s.index.size = 12 * vals.length
  index_mmap : s.index.mmap = entriesAux 0 0 (payloads base vals) ++
    List.replicate (c.maxIndexBytes - 12 * vals.length) 0
  mmap_len : s.index.mmap.length = c.maxIndexBytes

theorem U32_lt_U64 : U32 < U64 := by norm_num [U32, U64]
theorem U32_le_pow63 : U32 ≤ 2 ^ 63 := by norm_num [U32]

/-- Reading a mirrored segment at `base + k` returns record `k`. -/
theorem seg_read_mirror (s : Segment) (c : Config) (base : Nat)
    (vals : List (List Nat)) (h : SegMirrors s c base vals)
    (hU : base + vals.length < U32) (hw : weight vals < U64)
    (k : Nat) (hk : k < vals.length) :
    s.read (base + k) = some ⟨vals[k], base + k⟩ := by
  obtain ⟨⟨sdata, ssize⟩, ⟨mm, isz⟩, sb, sn, sc⟩ := s
  obtain ⟨hc, hb, hn, hsd, hss, his, him, hml⟩ := h
  dsimp only at hc hb hn hsd hss his him hml hU
  subst hc hb hn hsd his him
  subst hss
  have hkU : k < U32 := by omega
  have hbk : sb + k < U64 := lt_trans (by omega) U32_lt_U64
  have h1 : u64sub (sb + k) sb = k := u64sub_add sb k hbk
  have h2 : toInt64 k = (k : Int) := toInt64_small k (by have := U32_le_pow63; omega)
  have hkp : k < (payloads sb vals).length := by rw [payloads_length]; exact hk
  have hsum : sumLen (payloads sb vals) < U64 := by rw [sumLen_payloads]; exact hw
  have hposb : sumLen ((payloads sb vals).take k) < U64 :=
    lt_of_le_of_lt (sumLen_take_le _ _) hsum
  have hread := index_read_entries (payloads sb vals)
    (List.replicate (sc.maxIndexBytes - 12 * vals.length) 0) k hkp hkU hposb
  rw [payloads_length] at hread
  unfold Segment.read
  simp only
  rw [h1, h2, hread]
  dsimp only
  rw [store_read_frames (payloads sb vals) (framesOf (payloads sb vals)).length hsum k hkp]
  dsimp only
  rw [payloads_getElem sb vals k hk hkp]
  rw [unmarshal_marshal ⟨vals[k], sb + k⟩ hbk]

/-- Appending to a mirrored segment whose index has room: the append
returns `base + count` and the segment then mirrors `vals ++ [r.value]`. -/
theorem seg_append_mirror (s : Segment) (c : Config) (base : Nat)
    (vals : List (List Nat)) (h : SegMirrors s c base vals) (r : Rec)
    (hroom : s.index.isMaxed = false)
    (hU : base + vals.length + 1 < U32)
    (hw : weight (vals ++ [r.value]) < U64) :
    (s.append r).1 = some (base + vals.length) ∧
    SegMirrors (s.append r).2 c base (vals ++ [r.value]) := by
  obtain ⟨⟨sdata, ssize⟩, ⟨mm, isz⟩, sb, sn, sc⟩ := s
  obtain ⟨rv, ro⟩ := r
  obtain ⟨hc, hb, hn, hsd, hss, his, him, hml⟩ := h
  dsimp only at hc hb hn hsd hss his him hml hroom hU hw
  subst hc hb hn hsd his him
  subst hss
  have hlt64 : sb + vals.length + 1 < U64 := lt_trans hU U32_lt_U64
  have hrel : u64sub (sb + vals.length) sb % U32 = vals.length := by
    rw [u64sub_add sb vals.length (by omega), Nat.mod_eq_of_lt (by omega)]
  have hplen : (marshal ⟨rv, sb + vals.length⟩).length = 8 + rv.length := by
    simp [marshal, encodeU64_length]
  have hflen : (framesOf (payloads sb vals)).length = weight vals :=
    by rw [framesOf_length, sumLen_payloads]
  have hw' : weight vals + (16 + rv.length) = weight (vals ++ [rv]) := by
    rw [weight_append]
    simp [weight, payloads, sumLen, marshal, encodeU64_length]
    omega
  have hMge : 12 * vals.length + 12 ≤ sc.maxIndexBytes := by
    unfold Index.isMaxed at hroom
    dsimp only at hroom
    rw [entWidth_eq] at hroom
    simp only [decide_eq_false_iff_not, Nat.not_lt] at hroom
    omega
  have helen : (entriesAux 0 0 (payloads sb vals)).length = 12 * vals.length := by
    rw [entriesAux_length, payloads_length]
  have hsplice : writeBytes (entriesAux 0 0 (payloads sb vals) ++
      List.replicate (sc.maxIndexBytes - 12 * vals.length) 0) (12 * vals.length)
      (encodeU32 vals.length ++ encodeU64 (framesOf (payloads sb vals)).length) =
      entriesAux 0 0 (payloads sb (vals ++ [rv])) ++
        List.replicate (sc.maxIndexBytes - 12 * (vals.length + 1)) 0 := by
    unfold writeBytes
    have hblen : (encodeU32 vals.length ++
        encodeU64 (framesOf (payloads sb vals)).length).length = 12 := by
      simp [encodeU32_length, encodeU64_length]
    rw [hblen, List.take_left' helen]
    rw [show (12 * vals.length + 12 : Nat) =
          (entriesAux 0 0 (payloads sb vals)).length + 12 from by rw [helen],
      List.drop_append, List.drop_replicate]
    rw [payloads_append, entriesAux_append, payloads_length, framesOf_length]
    rw [show sc.maxIndexBytes - 12 * vals.length - 12 =
          sc.maxIndexBytes - 12 * (vals.length + 1) from by omega]
    simp [List.append_assoc]
  simp only [Segment.append, Store.append, Index.write, hroom, Bool.false_eq_true, if_false,
    hrel, hplen, lenWidth]
  constructor
  · trivial
  · refine ⟨rfl, rfl, ?_, ?_, ?_, ?_, ?_, ?_⟩
    · simp only [List.length_append, List.length_cons, List.length_nil]
      rw [Nat.mod_eq_of_lt (by omega)]
      omega
    · simp only
      rw [payloads_append, framesOf_append]
      simp [framesOf, frameOf, hplen]
    · simp only [List.length_append, hplen, hflen, encodeU64_length]
      rw [Nat.mod_eq_of_lt (by omega)]
      omega
    · simp only [List.length_append, List.length_cons, List.length_nil, entWidth_eq]
      omega
    · dsimp only
      rw [hsplice, List.length_append, List.length_cons, List.length_nil]
    · dsimp only
      rw [hsplice]
      rw [List.length_append, entriesAux_length, payloads_length, List.length_replicate,
        List.length_append, List.length_cons, List.length_nil]
      omega

/-- Chained mirror of a segment list: bases are contiguous
(`s₁.next = s₂.base`), each segment mirroring its slice of the values. -/
def SegsMirror (c : Config) : Nat → List Segment → List (List (List Nat)) → Prop
  | _, [], [] => True
  | b, s :: ss, p :: pp => SegMirrors s c b p ∧ SegsMirror c (b + p.length) ss pp
  | _, _ :: _, [] => False
  | _, [], _ :: _ => False

theorem segs_append_one (c : Config) (s : Segment) (q : List (List Nat)) :
    ∀ (ss : List Segment) (pp : List (List (List Nat))) (b : Nat),
      SegsMirror c b ss pp → SegMirrors s c (b + pp.flatten.length) q →
      SegsMirror c b (ss ++ [s]) (pp ++ [q]) := by
  intro ss
  induction ss with
  | nil =>
    intro pp b h hm
    cases pp with
    | nil => exact ⟨by simpa using hm, trivial⟩
    | cons p pp => exact absurd h (by simp [SegsMirror])
  | cons t ss ih =>
    intro pp b h hm
    cases pp with
    | nil => exact absurd h (by simp [SegsMirror])
    | cons p pp =>
      obtain ⟨h1, h2⟩ := h
      refine ⟨h1, ih pp (b + p.length) h2 ?_⟩
      have : b + p.length + pp.flatten.length = b + ((p :: pp).flatten).length := by
        simp [List.flatten]
        omega
      rw [this]
      exact hm

theorem segs_snoc_view (c : Config) :
    ∀ (ss : List Segment) (pp : List (List (List Nat))) (b : Nat),
      SegsMirror c b ss pp → ss ≠ [] →
      ∃ ss₀ sl pp₀ pl, ss = ss₀ ++ [sl] ∧ pp = pp₀ ++ [pl] ∧
        SegMirrors sl c (b + pp₀.flatten.length) pl ∧
        (∀ sl' pl', SegMirrors sl' c (b + pp₀.flatten.length) pl' →
          SegsMirror c b (ss₀ ++ [sl']) (pp₀ ++ [pl'])) := by
  intro ss
  induction ss with
  | nil => intro pp b _ hne; exact absurd rfl hne
  | cons t ss ih =>
    intro pp b h _
    cases pp with
    | nil => exact absurd h (by simp [SegsMirror])
    | cons p pp =>
      obtain ⟨h1, h2⟩ := h
      cases hss : ss with
      | nil =>
        cases pp with
        | nil =>
          refine ⟨[], t, [], p, by simp, by simp, by simpa using h1, ?_⟩
          intro sl' pl' hm
          exact ⟨by simpa using hm, trivial⟩
        | cons q pp' => rw [hss] at h2; exact absurd h2 (by simp [SegsMirror])
      | cons u us =>
        rw [hss] at h2
        obtain ⟨ss₀, sl, pp₀, pl, e1, e2, hm, hrepl⟩ :=
          ih pp (b + p.length) (by rw [← hss] at h2; exact h2) (by simp [hss])
        refine ⟨t :: ss₀, sl, p :: pp₀, pl, by simp [← e1, hss], by simp [e2], ?_, ?_⟩
        · have : b + p.length + pp₀.flatten.length = b + ((p :: pp₀).flatten).length := by
            simp [List.flatten]; omega
          rw [← this]
          exact hm
        · intro sl' pl' hm'
          refine ⟨h1, hrepl sl' pl' ?_⟩
          have : b + p.length + pp₀.flatten.length = b + ((p :: pp₀).flatten).length := by
            simp [List.flatten]; omega
          rw [this]
          exact hm'

theorem segs_last_next (c : Config) (ss : List Segment) (pp : List (List (List Nat)))
    (b : Nat) (h : SegsMirror c b ss pp) (hne : ss ≠ []) :
    ∃ sl, ss.getLast? = some sl ∧ sl.nextOffset = b + pp.flatten.length := by
  obtain ⟨ss₀, sl, pp₀, pl, e1, e2, hm, _⟩ := segs_snoc_view c ss pp b h hne
  refine ⟨sl, by rw [e1]; exact List.getLast?_concat _, ?_⟩
  rw [hm.next_eq, e2]
  simp [List.flatten_append]
  omega

theorem segs_base_ge (c : Config) :
    ∀ (ss : List Segment) (pp : List (List (List Nat))) (b : Nat),
      SegsMirror c b ss pp → ∀ t ∈ ss, b ≤ t.baseOffset := by
  intro ss
  induction ss with
  | nil => intro pp b _ t ht; simp at ht
  | cons s ss ih =>
    intro pp b h t ht
    cases pp with
    | nil => exact absurd h (by simp [SegsMirror])
    | cons p pp =>
      obtain ⟨h1, h2⟩ := h
      rcases List.mem_cons.mp ht with rfl | ht'
      · rw [h1.base_eq]
      · have := ih pp (b + p.length) h2 t ht'
        omega

/-- Read routing over a mirrored chain: `find?` locates the unique
covering segment and the segment read returns the original record. -/
theorem segs_find_read (c : Config) :
    ∀ (ss : List Segment) (pp : List (List (List Nat))) (b : Nat),
      SegsMirror c b ss pp → b + pp.flatten.length < U32 →
      weight pp.flatten < U64 →
      ∀ (i : Nat), (hi : i < pp.flatten.length) →
      ∃ s, ss.find? (fun t => decide (t.baseOffset ≤ b + i) &&
              decide (b + i < t.nextOffset)) = some s ∧
        s.read (b + i) = some ⟨pp.flatten[i], b + i⟩ := by
  intro ss
  induction ss with
  | nil =>
    intro pp b h _ _ i hi
    cases pp with
    | nil => simp at hi
    | cons p pp => exact absurd h (by simp [SegsMirror])
  | cons s ss ih =>
    intro pp b h hU hw i hi
    cases pp with
    | nil => exact absurd h (by simp [SegsMirror])
    | cons p pp =>
      obtain ⟨h1, h2⟩ := h
      have hflat : (p :: pp).flatten = p ++ pp.flatten := by simp [List.flatten]
      rw [hflat] at hU hw hi
      simp only [List.length_append] at hU hi
      by_cases hip : i < p.length
      · refine ⟨s, ?_, ?_⟩
        · apply List.find?_cons_of_pos
          simp only [Bool.and_eq_true, decide_eq_true_eq]
          rw [h1.base_eq, h1.next_eq]
          omega
        · have hw1 : weight p < U64 := by
            rw [weight_append] at hw; omega
          have := seg_read_mirror s c b p h1 (by omega) hw1 i hip
          rw [this]
          congr 2
          simp only [hflat]
          exact (List.getElem_append_left _).symm
      · have hpred : ¬ ((decide (s.baseOffset ≤ b + i) &&
            decide (b + i < s.nextOffset)) = true) := by
          simp only [Bool.and_eq_true, decide_eq_true_eq, not_and]
          rw [h1.base_eq, h1.next_eq]
          omega
        rw [show List.find? (fun t => decide (t.baseOffset ≤ b + i) &&
              decide (b + i < t.nextOffset)) (s :: ss) =
            List.find? (fun t => decide (t.baseOffset ≤ b + i) &&
              decide (b + i < t.nextOffset)) ss from List.find?_cons_of_neg _ hpred]
        have hw2 : weight pp.flatten < U64 := by
          rw [weight_append] at hw; omega
        have hi2 : i - p.length < pp.flatten.length := by omega
        obtain ⟨t, hfind, hread⟩ := ih pp (b + p.length) h2 (by omega) hw2 (i - p.length) hi2
        have harith : b + p.length + (i - p.length) = b + i := by omega
        rw [harith] at hfind hread
        refine ⟨t, hfind, ?_⟩
        rw [hread]
        congr 2
        simp only [hflat]
        rw [List.getElem_append_right (by omega)]

/-- Reachability invariant: the nonempty segment chain of the log mirrors a
partition of the values appended since creation at `initialOffset`, the
active segment is the last one, and only the last part may be empty. -/
def LogInv (c : Config) (init : Nat) (vs : List (List Nat)) (l : Log) : Prop :=
  ∃ parts : List (List (List Nat)),
    parts.flatten = vs ∧
    l.config = c ∧
    l.segments ≠ [] ∧
    SegsMirror c init l.segments parts ∧
    l.segments.getLast? = some l.activeSegment ∧
    (∀ p ∈ parts.dropLast, p ≠ [])

theorem freshSegment_mirrors (base : Nat) (c : Config) :
    SegMirrors (freshSegment base c) c base [] := by
  rw [freshSegment_eq]
  exact ⟨rfl, rfl, by simp, by simp [framesOf, payloads], by simp [framesOf, payloads],
    by simp, by simp [entriesAux, payloads], by simp⟩

theorem newLog_eq (c : Config) :
    newLog c = { config := withDefaults c,
                 segments := [freshSegment c.initialOffset (withDefaults c)],
                 activeSegment := freshSegment c.initialOffset (withDefaults c) } := rfl

theorem newLog_inv (c : Config) :
    LogInv (withDefaults c) c.initialOffset [] (newLog c) := by
  rw [newLog_eq]
  exact ⟨[[]], rfl, rfl, by simp, ⟨freshSegment_mirrors _ _, trivial⟩, by simp, by simp⟩

theorem withDefaults_store_pos (c : Config) : 1 ≤ (withDefaults c).maxStoreBytes := by
  unfold withDefaults
  dsimp only
  split <;> omega

theorem withDefaults_index_ge (c : Config)
    (h : 12 ≤ c.maxIndexBytes ∨ c.maxIndexBytes = 0) :
    12 ≤ (withDefaults c).maxIndexBytes := by
  unfold withDefaults
  dsimp only
  split <;> omega

theorem withDefaults_init (c : Config) :
    (withDefaults c).initialOffset = c.initialOffset := rfl

/-- A mirrored segment holding no records is not maxed (under sane
thresholds), hence a roll always has at least one record behind it. -/
theorem empty_mirror_not_maxed (s : Segment) (c : Config) (b : Nat)
    (h : SegMirrors s c b []) (hS : 1 ≤ c.maxStoreBytes) (hM : 12 ≤ c.maxIndexBytes) :
    s.isMaxed = false := by
  obtain ⟨hc, _, _, hsd, hss, his, _, hml⟩ := h
  unfold Segment.isMaxed Index.isMaxed
  rw [hc, hss, hsd, his, hml, entWidth_eq]
  simp only [framesOf, payloads, List.length_nil, Nat.mul_zero, Nat.zero_add]
  simp only [Bool.or_eq_false_iff, decide_eq_false_iff_not, Nat.not_le, Nat.not_lt]
  omega

theorem fresh_index_room (b : Nat) (c : Config) (hM : 12 ≤ c.maxIndexBytes) :
    (freshSegment b c).index.isMaxed = false := by
  rw [freshSegment_eq]
  unfold Index.isMaxed
  simp only [List.length_replicate, entWidth_eq]
  simp only [decide_eq_false_iff_not, Nat.not_lt]
  omega

theorem not_maxed_index_room (s : Segment) (h : s.isMaxed = false) :
    s.index.isMaxed = false := by
  unfold Segment.isMaxed at h
  simp only [Bool.or_eq_false_iff] at h
  exact h.2

/-- Appending via `Log.Append` on a reachable log returns the next offset and
preserves the invariant with the new value appended. -/
theorem logAppend_inv (c : Config) (init : Nat) (vs : List (List Nat)) (l : Log) (r : Rec)
    (hinv : LogInv c init vs l)
    (hS : 1 ≤ c.maxStoreBytes) (hM : 12 ≤ c.maxIndexBytes)
    (hU : init + vs.length + 1 < U32)
    (hw : weight (vs ++ [r.value]) < U64) :
    (l.append r).1 = .ok (init + vs.length) ∧
    LogInv c init (vs ++ [r.value]) (l.append r).2 := by
  obtain ⟨parts, hflat, hcfg, hne, hsegs, hact, hparts⟩ := hinv
  obtain ⟨ss₀, sl, pp₀, pl, e1, e2, hm, hrepl⟩ :=
    segs_snoc_view c l.segments parts init hsegs hne
  have hasl : l.activeSegment = sl := by
    rw [e1, List.getLast?_concat] at hact
    exact (Option.some.injEq _ _ ▸ hact).symm
  have hlens : init + pp₀.flatten.length + pl.length = init + vs.length := by
    rw [← hflat, e2, List.flatten_append]
    rw [show ([pl] : List (List (List Nat))).flatten = pl from by simp]
    rw [List.length_append]
    omega
  have hNU32 : init + vs.length < U32 := by omega
  have hNU64 : init + vs.length < U64 := lt_trans hNU32 U32_lt_U64
  have hwvs : weight pl + weight [r.value] ≤ weight (vs ++ [r.value]) := by
    rw [weight_append, ← hflat, e2, List.flatten_append]
    rw [show ([pl] : List (List (List Nat))).flatten = pl from by simp]
    rw [weight_append]
    omega
  by_cases hmax : l.activeSegment.isMaxed = true
  · -- roll: the active segment is full, so it holds at least one record
    have hplne : pl ≠ [] := by
      intro hplnil
      subst hplnil
      rw [hasl] at hmax
      rw [empty_mirror_not_maxed sl c (init + pp₀.flatten.length) hm hS hM] at hmax
      exact Bool.false_ne_true hmax
    have hN1 : 1 ≤ init + vs.length := by
      have : 1 ≤ pl.length := by
        cases pl with
        | nil => exact absurd rfl hplne
        | cons a b => simp
      omega
    have hnext : sl.nextOffset = init + vs.length := by
      rw [hm.next_eq]
      omega
    have hh : l.highestOffsetAux = .ok (init + vs.length - 1) := by
      unfold Log.highestOffsetAux
      rw [hact, hasl]
      dsimp only
      rw [hnext, if_neg (show ¬ (init + vs.length = 0) from by omega)]
    have hbase : init + vs.length - 1 + 1 = init + vs.length := by omega
    have hmod : (init + vs.length) % U64 = init + vs.length := Nat.mod_eq_of_lt hNU64
    have hfreshm := freshSegment_mirrors (init + vs.length) c
    have hwrv : weight ([] ++ [r.value]) < U64 := by
      have := weight_append vs [r.value]
      simp only [List.nil_append]
      omega
    obtain ⟨ha1, ha2⟩ := seg_append_mirror (freshSegment (init + vs.length) c) c
      (init + vs.length) [] hfreshm r
      (fresh_index_room (init + vs.length) c hM) (by simp only [List.length_nil]; omega) hwrv
    unfold Log.append
    rw [hh]
    dsimp only
    rw [hmax, if_pos rfl]
    unfold Log.newSegmentAt Log.setActive
    dsimp only
    rw [hbase, hmod, hcfg]
    rw [ha1]
    constructor
    · dsimp only
      simp
    · refine ⟨parts ++ [[r.value]], ?_, rfl, by simp, ?_, ?_, ?_⟩
      · rw [List.flatten_append, hflat]
        simp
      · rw [List.dropLast_concat]
        apply segs_append_one c _ _ l.segments parts init hsegs
        rw [hflat]
        have ha2' : SegMirrors ((freshSegment (init + vs.length) c).append r).2 c
            (init + vs.length) [r.value] := by simpa using ha2
        exact ha2'
      · rw [List.dropLast_concat, List.getLast?_concat]
      · intro p hp
        rw [List.dropLast_concat] at hp
        rw [e2] at hp
        rcases List.mem_append.mp hp with h' | h'
        · apply hparts
          rw [e2, List.dropLast_concat]
          exact h'
        · rw [List.mem_singleton.mp h']
          exact hplne
  · -- no roll: append into the current active segment
    have hmax' : l.activeSegment.isMaxed = false := by
      cases h' : l.activeSegment.isMaxed with
      | false => rfl
      | true => exact absurd h' hmax
    have hnext : sl.nextOffset = init + vs.length := by
      rw [hm.next_eq]
      omega
    have hh : l.highestOffsetAux =
        .ok (if init + vs.length = 0 then 0 else init + vs.length - 1) := by
      unfold Log.highestOffsetAux
      rw [hact, hasl]
      dsimp only
      rw [hnext]
      split <;> rfl
    have hroom : sl.index.isMaxed = false := by
      rw [← hasl]
      exact not_maxed_index_room _ hmax'
    have hUpl : init + pp₀.flatten.length + pl.length + 1 < U32 := by omega
    have hwpl : weight (pl ++ [r.value]) < U64 := by
      rw [weight_append]
      omega
    obtain ⟨ha1, ha2⟩ := seg_append_mirror sl c (init + pp₀.flatten.length) pl hm r
      hroom hUpl hwpl
    unfold Log.append
    rw [hh]
    dsimp only
    rw [hmax', if_neg (by simp)]
    unfold Log.setActive
    rw [hasl, ha1]
    dsimp only
    constructor
    · rw [hlens]
    · refine ⟨pp₀ ++ [pl ++ [r.value]], ?_, hcfg, by simp, ?_, ?_, ?_⟩
      · rw [List.flatten_append]
        rw [show ([pl ++ [r.value]] : List (List (List Nat))).flatten = pl ++ [r.value] from by
              simp]
        rw [← List.append_assoc]
        rw [show (pp₀.flatten ++ pl : List (List Nat)) = vs from by
              rw [← hflat, e2, List.flatten_append]; simp]
      · rw [e1, List.dropLast_concat]
        exact hrepl _ _ ha2
      · rw [List.getLast?_concat]
      · intro p hp
        rw [List.dropLast_concat] at hp
        apply hparts
        rw [e2, List.dropLast_concat]
        exact hp

theorem appendList_concat (l : Log) (a : List (List Nat)) (b : List Nat) :
    Log.appendList l (a ++ [b]) = ((Log.appendList l a).append ⟨b, 0⟩).2 := by
  unfold Log.appendList
  rw [List.foldl_append]
  rfl

theorem weight_take_le (vs : List (List Nat)) (j : Nat) :
    weight (vs.take j) ≤ weight vs := by
  conv_rhs => rw [← List.take_append_drop j vs]
  rw [weight_append]
  omega

theorem take_succ_concat (vs : List (List Nat)) (i : Nat) (hi : i < vs.length) :
    vs.take (i + 1) = vs.take i ++ [vs[i]] := by
  induction vs generalizing i with
  | nil => simp at hi
  | cons v vs ih =>
    cases i with
    | zero => simp
    | succ i =>
      have hi' : i < vs.length := by simpa using Nat.lt_of_succ_lt_succ hi
      rw [List.take_succ_cons, ih i hi']
      simp

/-- Every append prefix of a run from a fresh log satisfies the
invariant. -/
theorem appendList_inv (c : Config) (vs : List (List Nat))
    (hM : 12 ≤ c.maxIndexBytes ∨ c.maxIndexBytes = 0)
    (hU : c.initialOffset + vs.length + 1 < U32)
    (hw : weight vs < U64) :
    ∀ i, i ≤ vs.length →
      LogInv (withDefaults c) c.initialOffset (vs.take i)
        (Log.appendList (newLog c) (vs.take i)) := by
  intro i
  induction i with
  | zero => intro _; simpa [Log.appendList] using newLog_inv c
  | succ i ih =>
    intro hi1
    have hi : i < vs.length := by omega
    have hprev := ih (by omega)
    have htl : (vs.take i).length = i := by rw [List.length_take]; omega
    rw [take_succ_concat vs i hi, appendList_concat]
    exact (logAppend_inv (withDefaults c) c.initialOffset (vs.take i) _ ⟨vs[i], 0⟩ hprev
      (withDefaults_store_pos c) (withDefaults_index_ge c hM) (by rw [htl]; omega)
      (by rw [← take_succ_concat vs i hi]
          exact lt_of_le_of_lt (weight_take_le vs (i + 1)) hw)).2

/-- Reading offset `init + i` on a reachable log returns record `i`. -/
theorem logRead_inv (c : Config) (init : Nat) (vs : List (List Nat)) (l : Log)
    (hinv : LogInv c init vs l) (hU : init + vs.length < U32) (hw : weight vs < U64)
    (i : Nat) (hi : i < vs.length) :
    l.read (init + i) = .ok ⟨vs[i], init + i⟩ := by
  obtain ⟨parts, hflat, hcfg, hne, hsegs, hact, hparts⟩ := hinv
  have hUf : init + parts.flatten.length < U32 := by rw [hflat]; omega
  have hwf : weight parts.flatten < U64 := by rw [hflat]; exact hw
  have hif : i < parts.flatten.length := by rw [hflat]; exact hi
  obtain ⟨s, hfind, hread⟩ := segs_find_read c l.segments parts init hsegs hUf hwf i hif
  simp only [hflat] at hread
  unfold Log.read
  rw [hfind]
  dsimp only
  rw [hread]

/-- C1: appending `v₀ … vₙ₋₁` to a fresh log assigns offsets
`initial_offset + i` in order, and reading each offset back returns a
record with the original value and that offset. -/
theorem c1_append_then_read (c : Config) (vs : List (List Nat))
    (hM : 12 ≤ c.maxIndexBytes ∨ c.maxIndexBytes = 0)
    (hU : c.initialOffset + vs.length + 1 < U32)
    (hw : weight vs < U64) (i : Nat) (hi : i < vs.length) :
    ((Log.appendList (newLog c) (vs.take i)).append ⟨vs[i], 0⟩).1 =
      .ok (c.initialOffset + i) ∧
    (Log.appendList (newLog c) vs).read (c.initialOffset + i) =
      .ok ⟨vs[i], c.initialOffset + i⟩ := by
  have hmaster := appendList_inv c vs hM hU hw
  constructor
  · have hprev := hmaster i (le_of_lt hi)
    have htl : (vs.take i).length = i := by rw [List.length_take]; omega
    have hstep := (logAppend_inv (withDefaults c) c.initialOffset (vs.take i) _ ⟨vs[i], 0⟩
      hprev (withDefaults_store_pos c) (withDefaults_index_ge c hM) (by rw [htl]; omega)
      (by rw [← take_succ_concat vs i hi]
          exact lt_of_le_of_lt (weight_take_le vs (i + 1)) hw)).1
    rw [htl] at hstep
    exact hstep
  · have hfull := hmaster vs.length le_rfl
    rw [List.take_length] at hfull
    exact logRead_inv _ _ _ _ hfull (by omega) hw i hi

/-- Witness for C1: two appends, checking the second offset and read. -/
theorem c1_append_then_read_witness :
    ((Log.appendList (newLog ⟨0, 0, 0⟩) [[7]]).append ⟨[8], 0⟩).1 = .ok (0 + 1) ∧
    (Log.appendList (newLog ⟨0, 0, 0⟩) [[7], [8]]).read (0 + 1) = .ok ⟨[8], 0 + 1⟩ :=
  c1_append_then_read ⟨0, 0, 0⟩ [[7], [8]] (Or.inr rfl) (by decide)
    (by decide) 1 (by decide)

/-- C3 (amended): `HighestOffset` returns `active.next_offset − 1`
whenever `next_offset ≠ 0` — in particular whenever a record exists —
and `0` only when `next_offset = 0`; a fresh log with nonzero
`initial_offset` therefore returns `initial_offset − 1`, not `0`. -/
theorem c3_amended_highest (c : Config) (vs : List (List Nat))
    (hM : 12 ≤ c.maxIndexBytes ∨ c.maxIndexBytes = 0)
    (hU : c.initialOffset + vs.length + 1 < U32)
    (hw : weight vs < U64) :
    (Log.appendList (newLog c) vs).highestOffset =
      .ok (if c.initialOffset + vs.length = 0 then 0
           else c.initialOffset + vs.length - 1) := by
  have hfull := appendList_inv c vs hM hU hw vs.length le_rfl
  rw [List.take_length] at hfull
  obtain ⟨parts, hflat, hcfg, hne, hsegs, hact, hparts⟩ := hfull
  obtain ⟨sl, hl, hnext⟩ := segs_last_next (withDefaults c) _ parts c.initialOffset hsegs hne
  unfold Log.highestOffset Log.highestOffsetAux
  rw [hl]
  dsimp only
  rw [hnext, hflat]
  split <;> rfl

/-- Witness for C3 (amended): a fresh log with `initial_offset = 5`. -/
theorem c3_amended_highest_witness :
    (Log.appendList (newLog ⟨0, 24, 5⟩) []).highestOffset =
      .ok (if 5 + ([] : List (List Nat)).length = 0 then 0
           else 5 + ([] : List (List Nat)).length - 1) :=
  c3_amended_highest ⟨0, 24, 5⟩ [] (Or.inl (by decide)) (by decide) (by decide)

theorem segs_next_ge (c : Config) :
    ∀ (ss : List Segment) (pp : List (List (List Nat))) (b : Nat),
      SegsMirror c b ss pp → ∀ t ∈ ss, b ≤ t.nextOffset := by
  intro ss
  induction ss with
  | nil => intro pp b _ t ht; simp at ht
  | cons s ss ih =>
    intro pp b h t ht
    cases pp with
    | nil => exact absurd h (by simp [SegsMirror])
    | cons p pp =>
      obtain ⟨h1, h2⟩ := h
      rcases List.mem_cons.mp ht with rfl | ht'
      · rw [h1.next_eq]; omega
      · have := ih pp (b + p.length) h2 t ht'
        omega

/-- Read routing after `Truncate(L)`: on the filtered chain, offsets
below the base of the first survivor find no segment, offsets at or above it
read their original record (in particular every offset `> L`). -/
theorem segs_truncate_find (c : Config) (L : Nat) :
    ∀ (ss : List Segment) (pp : List (List (List Nat))) (b : Nat),
      SegsMirror c b ss pp → b + pp.flatten.length < U32 →
      weight pp.flatten < U64 →
      ∀ i, (hi : i < pp.flatten.length) →
      (∀ s0, (ss.filter (fun t => decide (L + 1 < t.nextOffset))).head? = some s0 →
         (b + i < s0.baseOffset →
           (ss.filter (fun t => decide (L + 1 < t.nextOffset))).find?
             (fun t => decide (t.baseOffset ≤ b + i) &&
               decide (b + i < t.nextOffset)) = none) ∧
         (s0.baseOffset ≤ b + i →
           ∃ s, (ss.filter (fun t => decide (L + 1 < t.nextOffset))).find?
               (fun t => decide (t.baseOffset ≤ b + i) &&
                 decide (b + i < t.nextOffset)) = some s ∧
             s.read (b + i) = some ⟨pp.flatten[i], b + i⟩)) ∧
      (L < b + i →
         ∃ s, (ss.filter (fun t => decide (L + 1 < t.nextOffset))).find?
             (fun t => decide (t.baseOffset ≤ b + i) &&
               decide (b + i < t.nextOffset)) = some s ∧
           s.read (b + i) = some ⟨pp.flatten[i], b + i⟩) := by
  intro ss
  induction ss with
  | nil =>
    intro pp b h _ _ i hi
    cases pp with
    | nil => simp at hi
    | cons p pp => exact absurd h (by simp [SegsMirror])
  | cons s ss ih =>
    intro pp b h hU hw i hi
    cases pp with
    | nil => exact absurd h (by simp [SegsMirror])
    | cons p pp =>
      obtain ⟨h1, h2⟩ := h
      have hflat : (p :: pp).flatten = p ++ pp.flatten := by simp
      have hnexts : s.nextOffset = b + p.length := h1.next_eq
      by_cases hkeep : L + 1 < s.nextOffset
      · -- the head survives, hence the whole chain survives
        have hallkeep : ss.filter (fun t => decide (L + 1 < t.nextOffset)) = ss := by
          apply List.filter_eq_self.mpr
          intro t ht
          have := segs_next_ge c ss pp (b + p.length) h2 t ht
          simp only [decide_eq_true_eq]
          omega
        have hfilter : (s :: ss).filter (fun t => decide (L + 1 < t.nextOffset)) = s :: ss := by
          rw [List.filter_cons_of_pos (by simp only [decide_eq_true_eq]; exact hkeep),
            hallkeep]
        rw [hfilter]
        obtain ⟨sf, hfind, hread⟩ :=
          segs_find_read c (s :: ss) (p :: pp) b ⟨h1, h2⟩ hU hw i hi
        constructor
        · intro s0 hs0
          rw [List.head?_cons] at hs0
          have hs0' : s0 = s := by injection hs0 with h'; exact h'.symm
          subst hs0'
          constructor
          · intro habs
            rw [h1.base_eq] at habs
            omega
          · intro _
            exact ⟨sf, hfind, hread⟩
        · intro _
          exact ⟨sf, hfind, hread⟩
      · -- the head is removed: s.nextOffset ≤ L + 1
        have hfilter : (s :: ss).filter (fun t => decide (L + 1 < t.nextOffset)) =
            ss.filter (fun t => decide (L + 1 < t.nextOffset)) := by
          rw [List.filter_cons_of_neg (by simpa using hkeep)]
        rw [hfilter]
        by_cases hip : i < p.length
        · -- the offset lived in the removed segment
          have hnone : (ss.filter (fun t => decide (L + 1 < t.nextOffset))).find?
              (fun t => decide (t.baseOffset ≤ b + i) &&
                decide (b + i < t.nextOffset)) = none := by
            apply List.find?_eq_none.mpr
            intro t ht
            have ht' : t ∈ ss := List.mem_of_mem_filter ht
            have hbase := segs_base_ge c ss pp (b + p.length) h2 t ht'
            simp only [Bool.and_eq_true, decide_eq_true_eq, not_and]
            omega
          constructor
          · intro s0 hs0
            have hs0mem : s0 ∈ ss.filter (fun t => decide (L + 1 < t.nextOffset)) :=
              List.mem_of_mem_head? hs0
            have hs0' : s0 ∈ ss := List.mem_of_mem_filter hs0mem
            have hbase := segs_base_ge c ss pp (b + p.length) h2 s0 hs0'
            exact ⟨fun _ => hnone, fun hle => absurd hle (by omega)⟩
          · intro hL
            exfalso
            omega
        · -- recurse past the removed segment
          have hi2 : i - p.length < pp.flatten.length := by
            rw [hflat] at hi
            simp only [List.length_append] at hi
            omega
          have harith : b + p.length + (i - p.length) = b + i := by omega
          have hUf : b + p.length + pp.flatten.length < U32 := by
            rw [hflat] at hU
            simp only [List.length_append] at hU
            omega
          have hwf : weight pp.flatten < U64 := by
            rw [hflat, weight_append] at hw
            omega
          obtain ⟨hAB, hD⟩ := ih pp (b + p.length) h2 hUf hwf (i - p.length) hi2
          rw [harith] at hAB hD
          have hgetsh : pp.flatten[i - p.length] = (p :: pp).flatten[i] := by
            simp only [hflat]
            rw [List.getElem_append_right (by omega)]
          constructor
          · intro s0 hs0
            obtain ⟨hA, hB⟩ := hAB s0 hs0
            refine ⟨hA, fun hle => ?_⟩
            obtain ⟨sf, hfind, hread⟩ := hB hle
            exact ⟨sf, hfind, by rw [hread, hgetsh]⟩
          · intro hL
            obtain ⟨sf, hfind, hread⟩ := hD hL
            exact ⟨sf, hfind, by rw [hread, hgetsh]⟩

theorem logRead_eq_find (l : Log) (o : Nat) :
    l.read o =
      match l.segments.find? (fun t => decide (t.baseOffset ≤ o) &&
          decide (o < t.nextOffset)) with
      | none => .error .offsetOutOfRange
      | some s =>
        match s.read o with
        | none => .error .eof
        | some r => .ok r := rfl

theorem truncate_segments (l : Log) (L : Nat) :
    (l.truncate L).segments =
      l.segments.filter (fun t => decide (L + 1 < t.nextOffset)) := rfl

/-- C2 (amended): `Truncate(L)` removes exactly the segments with
`next_offset ≤ L + 1`.  Afterwards, a previously readable offset returns
`OffsetOutOfRange` when it lies below the first surviving segment base
offset (or when no segment survives), and returns its original record
when it lies at or above that base — in particular for every offset
`> L`.  Offsets `≤ L` that the surviving first segment still covers
remain readable, contrary to the claim as stated. -/
theorem c2_amended_truncate (c : Config) (vs : List (List Nat))
    (hM : 12 ≤ c.maxIndexBytes ∨ c.maxIndexBytes = 0)
    (hU : c.initialOffset + vs.length + 1 < U32)
    (hw : weight vs < U64) (L i : Nat) (hi : i < vs.length) :
    ((Log.appendList (newLog c) vs).truncate L).segments =
      (Log.appendList (newLog c) vs).segments.filter
        (fun t => decide (L + 1 < t.nextOffset)) ∧
    (∀ s0, ((Log.appendList (newLog c) vs).truncate L).segments.head? = some s0 →
       (c.initialOffset + i < s0.baseOffset →
         ((Log.appendList (newLog c) vs).truncate L).read (c.initialOffset + i) =
           .error .offsetOutOfRange) ∧
       (s0.baseOffset ≤ c.initialOffset + i →
         ((Log.appendList (newLog c) vs).truncate L).read (c.initialOffset + i) =
           .ok ⟨vs[i], c.initialOffset + i⟩)) ∧
    (((Log.appendList (newLog c) vs).truncate L).segments.head? = none →
       ((Log.appendList (newLog c) vs).truncate L).read (c.initialOffset + i) =
         .error .offsetOutOfRange) ∧
    (L < c.initialOffset + i →
       ((Log.appendList (newLog c) vs).truncate L).read (c.initialOffset + i) =
         .ok ⟨vs[i], c.initialOffset + i⟩) := by
  have hfull := appendList_inv c vs hM hU hw vs.length le_rfl
  rw [List.take_length] at hfull
  obtain ⟨parts, hflat, hcfg, hne, hsegs, hact, hparts⟩ := hfull
  have hUf : c.initialOffset + parts.flatten.length < U32 := by rw [hflat]; omega
  have hwf : weight parts.flatten < U64 := by rw [hflat]; exact hw
  have hif : i < parts.flatten.length := by rw [hflat]; exact hi
  obtain ⟨hAB, hD⟩ := segs_truncate_find (withDefaults c) L
    (Log.appendList (newLog c) vs).segments parts c.initialOffset hsegs hUf hwf i hif
  simp only [hflat] at hAB hD
  refine ⟨rfl, ?_, ?_, ?_⟩
  · intro s0 hs0
    rw [truncate_segments] at hs0
    obtain ⟨hA, hB⟩ := hAB s0 hs0
    constructor
    · intro hlt
      rw [logRead_eq_find, truncate_segments, hA hlt]
    · intro hle
      obtain ⟨sf, hfind, hread⟩ := hB hle
      rw [logRead_eq_find, truncate_segments, hfind]
      dsimp only
      rw [hread]
  · intro hnone
    rw [truncate_segments] at hnone
    rw [logRead_eq_find, truncate_segments,
      List.find?_eq_none.mpr (by rw [List.head?_eq_none_iff] at hnone; simp [hnone])]
  · intro hL
    obtain ⟨sf, hfind, hread⟩ := hD hL
    rw [logRead_eq_find, truncate_segments, hfind]
    dsimp only
    rw [hread]

/-- Witness for C2 (amended): three records over two segments, truncate
at `L = 1`; the first segment (offsets 0–1) is removed, offset 2
survives. -/
theorem c2_amended_truncate_witness :
    ((Log.appendList (newLog ⟨0, 24, 0⟩) [[7], [8], [9]]).truncate 1).segments =
      (Log.appendList (newLog ⟨0, 24, 0⟩) [[7], [8], [9]]).segments.filter
        (fun t => decide (1 + 1 < t.nextOffset)) ∧
    (∀ s0, ((Log.appendList (newLog ⟨0, 24, 0⟩) [[7], [8], [9]]).truncate 1).segments.head? =
        some s0 →
       (0 + 2 < s0.baseOffset →
         ((Log.appendList (newLog ⟨0, 24, 0⟩) [[7], [8], [9]]).truncate 1).read (0 + 2) =
           .error .offsetOutOfRange) ∧
       (s0.baseOffset ≤ 0 + 2 →
         ((Log.appendList (newLog ⟨0, 24, 0⟩) [[7], [8], [9]]).truncate 1).read (0 + 2) =
           .ok ⟨[9], 0 + 2⟩)) ∧
    (((Log.appendList (newLog ⟨0, 24, 0⟩) [[7], [8], [9]]).truncate 1).segments.head? = none →
       ((Log.appendList (newLog ⟨0, 24, 0⟩) [[7], [8], [9]]).truncate 1).read (0 + 2) =
         .error .offsetOutOfRange) ∧
    ((1 : Nat) < 0 + 2 →
       ((Log.appendList (newLog ⟨0, 24, 0⟩) [[7], [8], [9]]).truncate 1).read (0 + 2) =
         .ok ⟨[9], 0 + 2⟩) :=
  c2_amended_truncate ⟨0, 24, 0⟩ [[7], [8], [9]] (Or.inl (by decide)) (by decide) (by decide)
    1 2 (by decide)

/-! ## Reopen (C5): `setup` over the directory written by `Close` -/

/-- Each base offset appears twice among the directory file names
(once per `.store`/`.index`). -/
def doubled : List Nat → List Nat
  | [] => []
  | b :: bs => b :: b :: doubled bs

theorem insertSorted_cons_of_le (x y : Nat) (ys : List Nat) (h : x ≤ y) :
    insertSorted x (y :: ys) = x :: y :: ys := by
  simp [insertSorted, h]

theorem isort_doubled (bs : List Nat) (h : List.Chain' (· < ·) bs) :
    isort (doubled bs) = doubled bs := by
  induction bs with
  | nil => rfl
  | cons b rest ih =>
    have htail : List.Chain' (· < ·) rest := h.tail
    have hstep : isort (doubled (b :: rest)) =
        insertSorted b (insertSorted b (isort (doubled rest))) := rfl
    rw [hstep, ih htail]
    cases rest with
    | nil => simp [insertSorted, doubled]
    | cons b' r' =>
      have hb : b < b' := (List.chain'_cons.mp h).1
      rw [show doubled (b' :: r') = b' :: b' :: doubled r' from rfl]
      rw [insertSorted_cons_of_le b b' _ (by omega)]
      rw [insertSorted_cons_of_le b b _ (by omega)]
      rfl

theorem everyOther_doubled (bs : List Nat) : everyOther (doubled bs) = bs := by
  induction bs with
  | nil => rfl
  | cons b rest ih => simp only [doubled, everyOther, ih]

/-- The directory entry written for a segment by `Close`: the store
bytes of the store file, and the index file truncated back to `size`. -/
def entryOf (s : Segment) : DirEnt :=
  (s.baseOffset, s.store.data, s.index.mmap.take s.index.size)

theorem closeDir_eq (l : Log) : l.closeDir = l.segments.map entryOf := rfl

theorem closeDir_flatMap (ss : List Segment) :
    ((ss.map entryOf).flatMap (fun e => [e.1, e.1])) =
      doubled (ss.map (fun t => t.baseOffset)) := by
  induction ss with
  | nil => rfl
  | cons s ss ih =>
    simp only [List.map_cons, List.flatMap_cons, doubled, ih]
    rfl

theorem find?_entryOf (ss : List Segment) (t : Segment)
    (hchain : List.Pairwise (· < ·) (ss.map (fun u => u.baseOffset)))
    (ht : t ∈ ss) :
    (ss.map entryOf).find? (fun e => e.1 == t.baseOffset) = some (entryOf t) := by
  induction ss with
  | nil => simp at ht
  | cons s ss ih =>
    rcases List.mem_cons.mp ht with rfl | ht'
    · apply List.find?_cons_of_pos
      simp [entryOf]
    · have hlt : s.baseOffset < t.baseOffset := by
        rw [List.map_cons, List.pairwise_cons] at hchain
        exact hchain.1 _ (List.mem_map_of_mem _ ht')
      rw [List.map_cons]
      rw [List.find?_cons_of_neg _ (by simp [entryOf]; omega)]
      apply ih
      · rw [List.map_cons, List.pairwise_cons] at hchain
        exact hchain.2
      · exact ht'

theorem segs_bases_chain (c : Config) :
    ∀ (ss : List Segment) (pp : List (List (List Nat))) (b : Nat),
      SegsMirror c b ss pp → (∀ p ∈ pp.dropLast, p ≠ []) →
      List.Chain' (· < ·) (ss.map (fun u => u.baseOffset)) := by
  intro ss
  induction ss with
  | nil => intro pp b _ _; simp
  | cons s ss ih =>
    intro pp b h hdrop
    cases pp with
    | nil => exact absurd h (by simp [SegsMirror])
    | cons p pp =>
      obtain ⟨h1, h2⟩ := h
      cases hss : ss with
      | nil => simp
      | cons s2 rest =>
        subst hss
        cases pp with
        | nil => exact absurd h2 (by simp [SegsMirror])
        | cons p2 pp' =>
          obtain ⟨h21, h22⟩ := h2
          have hpne : p ≠ [] := by
            apply hdrop
            simp [List.dropLast_cons_of_ne_nil]
          have hplen : 1 ≤ p.length := by
            cases p with
            | nil => exact absurd rfl hpne
            | cons a b => simp
          rw [List.map_cons, List.map_cons, List.chain'_cons]
          constructor
          · rw [h1.base_eq, h21.base_eq]
            omega
          · rw [← List.map_cons]
            apply ih (p2 :: pp') (b + p.length) ⟨h21, h22⟩
            intro q hq
            apply hdrop
            rw [List.dropLast_cons_of_ne_nil (by simp)]
            exact List.mem_cons_of_mem _ hq

theorem u64sub_one (n : Nat) (h1 : 1 ≤ n) (h2 : n < U64) : u64sub n 1 = n - 1 := by
  simp only [u64sub]
  rw [Nat.mod_eq_of_lt h2, Nat.mod_eq_of_lt (show (1 : Nat) < U64 by norm_num [U64])]
  rw [show n + (U64 - 1) = (n - 1) + U64 from by omega, Nat.add_mod_right,
    Nat.mod_eq_of_lt (by omega)]

/-- Reopening a closed mirrored segment reconstructs it exactly: the
store size is the file length, the index size is the truncated file
length, the mapping is re-extended with zeros, and `nextOffset` is
re-derived from the last index entry. -/
theorem reopen_segment (s : Segment) (c : Config) (b : Nat) (vals : List (List Nat))
    (h : SegMirrors s c b vals) (hb : b + vals.length < U32)
    (hw : weight vals < U64) (hMU : c.maxIndexBytes < U64) :
    newSegment s.store.data (s.index.mmap.take s.index.size) s.baseOffset c = s := by
  obtain ⟨⟨sdata, ssize⟩, ⟨mm, isz⟩, sb, sn, sc⟩ := s
  obtain ⟨hc, hbq, hn, hsd, hss, his, him, hml⟩ := h
  dsimp only at hc hbq hn hsd hss his him hml hb
  subst hc hbq hn hsd his him
  subst hss
  have helen : (entriesAux 0 0 (payloads sb vals)).length = 12 * vals.length := by
    rw [entriesAux_length, payloads_length]
  have hMge : 12 * vals.length ≤ sc.maxIndexBytes := by
    rw [List.length_append, helen, List.length_replicate] at hml
    omega
  have htake : (entriesAux 0 0 (payloads sb vals) ++
      List.replicate (sc.maxIndexBytes - 12 * vals.length) 0).take (12 * vals.length) =
      entriesAux 0 0 (payloads sb vals) := List.take_left' helen
  have hfw : (framesOf (payloads sb vals)).length = weight vals := by
    rw [framesOf_length, sumLen_payloads]
  unfold newSegment newStore newIndex
  dsimp only
  rw [htake, helen]
  have hsize : 12 * vals.length % U64 = 12 * vals.length := Nat.mod_eq_of_lt (by omega)
  have hstoresz : (framesOf (payloads sb vals)).length % U64 =
      (framesOf (payloads sb vals)).length := by
    rw [hfw]
    exact Nat.mod_eq_of_lt hw
  have hpad : padTrunc sc.maxIndexBytes (entriesAux 0 0 (payloads sb vals)) =
      entriesAux 0 0 (payloads sb vals) ++
        List.replicate (sc.maxIndexBytes - 12 * vals.length) 0 := by
    unfold padTrunc
    rw [List.take_of_length_le (by rw [helen]; omega), helen]
  rw [hsize, hstoresz, hpad]
  cases hv : vals with
  | nil =>
    subst hv
    have : Index.read ⟨entriesAux 0 0 (payloads sb ([] : List (List Nat))) ++
        List.replicate (sc.maxIndexBytes - 12 * ([] : List (List Nat)).length) 0,
        12 * ([] : List (List Nat)).length⟩ (-1) = none := by
      simp [Index.read, payloads, entriesAux]
    rw [this]
    rfl
  | cons v vt =>
    subst hv
    set vals := v :: vt with hvals
    have hlen1 : 1 ≤ vals.length := by rw [hvals]; simp
    have hlenU : vals.length < U32 := by omega
    have hread : Index.read ⟨entriesAux 0 0 (payloads sb vals) ++
        List.replicate (sc.maxIndexBytes - 12 * vals.length) 0, 12 * vals.length⟩ (-1) =
        some (vals.length - 1, sumLen ((payloads sb vals).take (vals.length - 1))) := by
      unfold Index.read
      dsimp only
      rw [if_neg (by omega), if_pos rfl]
      have hdiv : 12 * vals.length / entWidth = vals.length := by
        rw [entWidth_eq]
        exact Nat.mul_div_cancel_left _ (by norm_num)
      rw [hdiv, u64sub_one vals.length hlen1 (lt_trans hlenU U32_lt_U64)]
      rw [Nat.mod_eq_of_lt (by omega)]
      rw [if_neg (by rw [entWidth_eq]; omega)]
      unfold Index.entryAt
      simp only [entWidth_eq, offWidth_eq, posWidth_eq]
      have hkp : vals.length - 1 < (payloads sb vals).length := by
        rw [payloads_length]
        omega
      rw [entries_slice_off (payloads sb vals) _ 0 0 (vals.length - 1) hkp,
        entries_slice_pos (payloads sb vals) _ 0 0 (vals.length - 1) hkp]
      simp only [Nat.zero_add]
      rw [decodeBE_encodeU32, decodeBE_encodeU64]
      rw [Nat.mod_eq_of_lt (by omega), Nat.mod_eq_of_lt (by
        have h1 := sumLen_take_le (payloads sb vals) (vals.length - 1)
        have h2 : sumLen (payloads sb vals) = weight vals := sumLen_payloads _ _
        omega)]
    rw [hread]
    dsimp only
    rw [show (sb + (vals.length - 1) + 1) % U64 = sb + vals.length from by
      rw [Nat.mod_eq_of_lt
        (lt_trans (show sb + (vals.length - 1) + 1 < U32 by omega) U32_lt_U64)]
      omega]

/-- Every segment of a mirrored chain mirrors some slice, with bounds
inherited from the whole chain. -/
theorem segs_mem_mirror (c : Config) :
    ∀ (ss : List Segment) (pp : List (List (List Nat))) (b : Nat),
      SegsMirror c b ss pp → ∀ t ∈ ss,
      ∃ b' q, SegMirrors t c b' q ∧ b ≤ b' ∧
        b' + q.length ≤ b + pp.flatten.length ∧ weight q ≤ weight pp.flatten := by
  intro ss
  induction ss with
  | nil => intro pp b _ t ht; simp at ht
  | cons s ss ih =>
    intro pp b h t ht
    cases pp with
    | nil => exact absurd h (by simp [SegsMirror])
    | cons p pp =>
      obtain ⟨h1, h2⟩ := h
      have hflat : (p :: pp).flatten = p ++ pp.flatten := by simp
      rcases List.mem_cons.mp ht with rfl | ht'
      · refine ⟨b, p, h1, le_rfl, ?_, ?_⟩
        · rw [hflat]
          simp only [List.length_append]
          omega
        · rw [hflat, weight_append]
          omega
      · obtain ⟨b', q, hm, hge, hle, hwle⟩ := ih pp (b + p.length) h2 t ht'
        refine ⟨b', q, hm, by omega, ?_, ?_⟩
        · rw [hflat]
          simp only [List.length_append]
          omega
        · rw [hflat, weight_append]
          omega

/-- Reopening the directory written by closing a reachable log yields
the identical log state. -/
theorem logOfDir_closeDir (c : Config) (vs : List (List Nat))
    (hM : 12 ≤ c.maxIndexBytes ∨ c.maxIndexBytes = 0)
    (hMU : c.maxIndexBytes < U64)
    (hU : c.initialOffset + vs.length + 1 < U32)
    (hw : weight vs < U64) :
    logOfDir ((Log.appendList (newLog c) vs).closeDir) c =
      Log.appendList (newLog c) vs := by
  have hfull := appendList_inv c vs hM hU hw vs.length le_rfl
  rw [List.take_length] at hfull
  obtain ⟨parts, hflat, hcfg, hne, hsegs, hact, hparts⟩ := hfull
  have hchain := segs_bases_chain (withDefaults c) (Log.appendList (newLog c) vs).segments
    parts c.initialOffset hsegs hparts
  have hpair : List.Pairwise (· < ·)
      ((Log.appendList (newLog c) vs).segments.map (fun u => u.baseOffset)) :=
    List.chain'_iff_pairwise.mp hchain
  have hbases : everyOther (isort
      (((Log.appendList (newLog c) vs).segments.map entryOf).flatMap
        (fun e => [e.1, e.1]))) =
      (Log.appendList (newLog c) vs).segments.map (fun u => u.baseOffset) := by
    rw [closeDir_flatMap, isort_doubled _ hchain, everyOther_doubled]
  have hMU' : (withDefaults c).maxIndexBytes < U64 := by
    unfold withDefaults
    dsimp only
    split
    · norm_num [U64]
    · exact hMU
  have hopen : ∀ t ∈ (Log.appendList (newLog c) vs).segments,
      openSegOf ((Log.appendList (newLog c) vs).segments.map entryOf)
        (withDefaults c) t.baseOffset = t := by
    intro t ht
    unfold openSegOf
    rw [find?_entryOf _ t hpair ht]
    obtain ⟨b', q, hm, _, hle, hwle⟩ := segs_mem_mirror (withDefaults c)
      (Log.appendList (newLog c) vs).segments parts c.initialOffset hsegs t ht
    have hb' : b' + q.length < U32 := by
      have h' : c.initialOffset + parts.flatten.length < U32 := by rw [hflat]; omega
      omega
    have hwq : weight q < U64 := by
      have h' : weight parts.flatten < U64 := by rw [hflat]; exact hw
      omega
    exact reopen_segment t (withDefaults c) b' q hm hb' hwq hMU'
  have hmap : ((Log.appendList (newLog c) vs).segments.map (fun u => u.baseOffset)).map
      (openSegOf ((Log.appendList (newLog c) vs).segments.map entryOf) (withDefaults c)) =
      (Log.appendList (newLog c) vs).segments := by
    rw [List.map_map]
    calc (Log.appendList (newLog c) vs).segments.map
          (fun t => openSegOf ((Log.appendList (newLog c) vs).segments.map entryOf)
            (withDefaults c) t.baseOffset)
        = (Log.appendList (newLog c) vs).segments.map id :=
          List.map_congr_left (fun t ht => hopen t ht)
      _ = (Log.appendList (newLog c) vs).segments := List.map_id _
  unfold logOfDir
  rw [closeDir_eq, hbases]
  dsimp only
  rw [hmap]
  cases hseg : (Log.appendList (newLog c) vs).segments with
  | nil => exact absurd hseg hne
  | cons s rest =>
    dsimp only
    have hactive : (s :: rest).getLast (by simp) =
        (Log.appendList (newLog c) vs).activeSegment := by
      rw [hseg] at hact
      rw [List.getLast?_eq_getLast (s :: rest) (by simp)] at hact
      injection hact
    rw [hactive, ← hcfg, ← hseg]

/-- C5: closing and reopening a log at the same directory with the same
config yields an identical log, so every previously readable offset
returns its original value; and on segment open `next_offset` is derived
from the last index entry (`base` when the index is empty, else
`base + last_relative + 1`). -/
theorem c5_reopen_roundtrip (c : Config) (vs : List (List Nat))
    (hM : 12 ≤ c.maxIndexBytes ∨ c.maxIndexBytes = 0)
    (hMU : c.maxIndexBytes < U64)
    (hU : c.initialOffset + vs.length + 1 < U32)
    (hw : weight vs < U64) :
    (logOfDir ((Log.appendList (newLog c) vs).closeDir) c =
       Log.appendList (newLog c) vs) ∧
    (∀ i, (hi : i < vs.length) →
       (logOfDir ((Log.appendList (newLog c) vs).closeDir) c).read (c.initialOffset + i) =
         .ok ⟨vs[i], c.initialOffset + i⟩) ∧
    (∀ storeB indexB base,
       (newSegment storeB indexB base c).nextOffset =
         match (newIndex indexB c.maxIndexBytes).read (-1) with
         | none => base
         | some (off, _) => (base + off + 1) % U64) := by
  have heq := logOfDir_closeDir c vs hM hMU hU hw
  refine ⟨heq, ?_, fun _ _ _ => rfl⟩
  intro i hi
  rw [heq]
  have hfull := appendList_inv c vs hM hU hw vs.length le_rfl
  rw [List.take_length] at hfull
  exact logRead_inv _ _ _ _ hfull (by omega) hw i hi

/-- Witness for C5: one record, closed and reopened. -/
theorem c5_reopen_roundtrip_witness :
    (logOfDir ((Log.appendList (newLog ⟨0, 0, 0⟩) [[7]]).closeDir) ⟨0, 0, 0⟩ =
       Log.appendList (newLog ⟨0, 0, 0⟩) [[7]]) ∧
    (∀ i, (hi : i < ([[7]] : List (List Nat)).length) →
       (logOfDir ((Log.appendList (newLog ⟨0, 0, 0⟩) [[7]]).closeDir) ⟨0, 0, 0⟩).read (0 + i) =
         .ok ⟨[[7]][i], 0 + i⟩) ∧
    (∀ storeB indexB base,
       (newSegment storeB indexB base ⟨0, 0, 0⟩).nextOffset =
         match (newIndex indexB (0 : Nat)).read (-1) with
         | none => base
         | some (off, _) => (base + off + 1) % U64) :=
  c5_reopen_roundtrip ⟨0, 0, 0⟩ [[7]] (Or.inr rfl) (by decide) (by decide) (by decide)

end Proglog
